import Mathlib

/-!
Verification development for the Worker-Home shift-scheduling core.

The definitions below are a shallow embedding of the Python sources
`utils.py` and `scheduler.py`:

* pure string/time helpers become Lean functions on `String`;
* Python `int`/minute arithmetic is modeled with `Int`, and fractional
  hour totals (`duration_hours`, `weekly_hours`) with `ℚ` (the Python
  floats involved are produced by `minutes / 60` and sums thereof);
* a Python function that can raise an uncaught exception is modeled with
  an `Option`/`none` result (`none` = the call raises);
* Python dicts keyed by weekday name become association lists with
  first-match lookup, and the in-place mutation of worker records in
  `ScheduleGenerator.generate_schedule` becomes explicit state passing
  of the worker list, with updates addressed by list position (matching
  Python object identity).

Theorems about these definitions follow after all definitions.
-/

/-! ## String primitives (models of the Python `str` operations used) -/

/-- Boolean test that a character list starts with a given pattern list. -/
def startsWithL : List Char → List Char → Bool
  | [], _ => true
  | _ :: _, [] => false
  | p :: ps, c :: cs => p == c && startsWithL ps cs

/-- Boolean substring occurrence test on character lists: does `pat` occur
contiguously inside the second list?  Models the Python `in` operator on
strings. -/
def containsSub (pat : List Char) : List Char → Bool
  | [] => startsWithL pat []
  | c :: cs => startsWithL pat (c :: cs) || containsSub pat cs

/-- Python `pat in s` substring test. -/
def strContains (s pat : String) : Bool := containsSub pat.toList s.toList

/-- Whitespace strip on a character list (Python `str.strip()`, restricted
to the ASCII whitespace that can occur in this program's data). -/
def trimL (l : List Char) : List Char :=
  ((l.dropWhile Char.isWhitespace).reverse.dropWhile Char.isWhitespace).reverse

/-- Digit value of an ASCII digit character. -/
def digitVal (c : Char) : Nat := c.toNat - '0'.toNat

/-- Parse a non-empty all-digit character list; `none` when empty or not
all digits (the success cases of Python `int` on such runs). -/
def digitsToNat (l : List Char) : Option Nat :=
  if l.isEmpty then none
  else if l.all Char.isDigit then
    some (l.foldl (fun acc c => acc * 10 + digitVal c) 0)
  else none

/-- Model of the Python `int(...)` parser as used on time components:
optional surrounding whitespace, optional sign, decimal digits.  (Digit
underscores and non-ASCII digits are not modeled; no input relevant to the
scheduling core uses them.) -/
def pyInt (s : String) : Option Int :=
  match trimL s.data with
  | '-' :: rest => (digitsToNat rest).map (fun n => -(n : Int))
  | '+' :: rest => (digitsToNat rest).map (fun n => (n : Int))
  | l => (digitsToNat l).map (fun n => (n : Int))

/-- Fuel-driven split on a non-empty separator, non-overlapping and
leftmost-first: the recursion structure of Python `str.split(sep)`.  The
fuel (instantiated with the input length, which bounds the number of
steps) only makes the recursion structural. -/
def splitOnFuel (sep : List Char) : Nat → List Char → List (List Char)
  | 0, l => [l]
  | fuel + 1, l =>
    match l with
    | [] => [[]]
    | c :: cs =>
      if startsWithL sep (c :: cs) then
        [] :: splitOnFuel sep fuel (List.drop sep.length (c :: cs))
      else
        match splitOnFuel sep fuel cs with
        | [] => []
        | h :: t => (c :: h) :: t

/-- Python `s.split(sep)` for a non-empty separator. -/
def pySplit (s sep : String) : List String :=
  (splitOnFuel sep.data s.data.length s.data).map String.mk

/-- Fuel-driven replacement of every non-overlapping leftmost occurrence:
Python `str.replace(old, new)` for non-empty `old`. -/
def replaceFuel (old new : List Char) : Nat → List Char → List Char
  | 0, l => l
  | fuel + 1, l =>
    match l with
    | [] => []
    | c :: cs =>
      if startsWithL old (c :: cs) then
        new ++ replaceFuel old new fuel (List.drop old.length (c :: cs))
      else c :: replaceFuel old new fuel cs

/-- Python `s.replace(old, new)` for non-empty `old`. -/
def pyReplace (s old new : String) : String :=
  String.mk (replaceFuel old.data new.data s.data.length s.data)

/-- Python `s.lower()` (ASCII, which covers all program data). -/
def pyLower (s : String) : String := String.mk (s.data.map Char.toLower)

/-- Python `s.strip()`. -/
def pyStrip (s : String) : String := String.mk (trimL s.data)

/-! ## Model of `datetime.strptime(_, "%I:%M %p")` / `strftime("%H:%M")`

CPython compiles the format `"%I:%M %p"` to the anchored regular expression
`(1[0-2]|0[1-9]|[1-9]):([0-5]\d|\d)\s+(AM|PM)` (case-insensitive on the
meridiem), requiring the whole string to be consumed.  The parsers below
implement exactly that grammar; the alternations are prefix-deterministic
for this format, so no backtracking is needed. -/

/-- Parse the `%I` field: `1[0-2]|0[1-9]|[1-9]`, returning the hour (1–12)
and the remaining characters. -/
def parseHour12 : List Char → Option (Nat × List Char)
  | c1 :: c2 :: rest =>
    if c1 = '1' ∧ '0' ≤ c2 ∧ c2 ≤ '2' then some (10 + digitVal c2, rest)
    else if c1 = '0' ∧ '1' ≤ c2 ∧ c2 ≤ '9' then some (digitVal c2, rest)
    else if '1' ≤ c1 ∧ c1 ≤ '9' then some (digitVal c1, c2 :: rest)
    else none
  | [c1] => if '1' ≤ c1 ∧ c1 ≤ '9' then some (digitVal c1, []) else none
  | [] => none

/-- Parse the `%M` field: `[0-5]\d|\d`, returning the minute (0–59) and the
remaining characters. -/
def parseMin : List Char → Option (Nat × List Char)
  | c1 :: c2 :: rest =>
    if '0' ≤ c1 ∧ c1 ≤ '5' ∧ c2.isDigit then
      some (10 * digitVal c1 + digitVal c2, rest)
    else if c1.isDigit then some (digitVal c1, c2 :: rest)
    else none
  | [c1] => if c1.isDigit then some (digitVal c1, []) else none
  | [] => none

/-- Parse `\s+` (the whitespace of the format string): at least one
whitespace character, consuming the maximal run. -/
def parseWs1 : List Char → Option (List Char)
  | c :: rest => if c.isWhitespace then some (rest.dropWhile Char.isWhitespace) else none
  | [] => none

/-- Model of `datetime.strptime(s, "%I:%M %p")`: on success returns
`(hour12, minute, isPM)`; `none` models the `ValueError` the caller
catches. -/
def strptimeIMp (s : String) : Option (Nat × Nat × Bool) :=
  match parseHour12 s.data with
  | none => none
  | some (h, rest) =>
    match rest with
    | ':' :: rest2 =>
      match parseMin rest2 with
      | none => none
      | some (m, rest3) =>
        match parseWs1 rest3 with
        | none => none
        | some rest4 =>
          match rest4 with
          | [c1, c2] =>
            if (c1 = 'a' ∨ c1 = 'A') ∧ (c2 = 'm' ∨ c2 = 'M') then some (h, m, false)
            else if (c1 = 'p' ∨ c1 = 'P') ∧ (c2 = 'm' ∨ c2 = 'M') then some (h, m, true)
            else none
          | _ => none
    | _ => none

/-- 12-hour to 24-hour hour conversion performed by `strptime` for
`%I`/`%p`: AM maps 12 to 0, PM adds 12 to hours other than 12. -/
def hour24 (h : Nat) (pm : Bool) : Nat :=
  if pm then (if h = 12 then 12 else h + 12) else (if h = 12 then 0 else h)

/-- Two-digit zero-padded decimal rendering, as in `%H`/`%M` of
`strftime`. -/
def twoDigit (n : Nat) : String := (if n < 10 then "0" else "") ++ toString n

/-- Model of `time_obj.strftime("%H:%M")`. -/
def strftimeHM (h m : Nat) : String := twoDigit h ++ ":" ++ twoDigit m

/-! ## `utils.py` time model -/

/-- Embedding of `utils.convert_time_to_24hr` (utils.py:9-44).  `none`
models the Python `return None` paths (the body never lets an exception
escape: everything after the initial check sits in `try/except`). -/
def convert_time_to_24hr (time_str : String) : Option String :=
  if pyLower time_str = "na" ∨ time_str = "" then none
  else
    -- if it is a range, just get the first part
    let t1 := if strContains time_str " - " then (pySplit time_str " - ").headD "" else time_str
    let t2 := pyStrip t1
    if strContains (pyLower t2) "am" ∨ strContains (pyLower t2) "pm" then
      let t3 := pyReplace (pyReplace (pyLower t2) "am" " AM") "pm" " PM"
      let t4 := pyReplace (pyReplace t3 "a.m." " AM") "p.m." " PM"
      let t5 :=
        if ¬ strContains t4 ":" ∧ t4.data.any Char.isDigit then
          let num_part := String.mk (t4.data.filter Char.isDigit)
          let am_pm := if strContains (pyLower t4) "am" then "AM" else "PM"
          num_part ++ ":00 " ++ am_pm
        else t4
      match strptimeIMp t5 with
      | none => none
      | some (h, m, pm) => some (strftimeHM (hour24 h pm) m)
    else
      -- assume 24-hour format already (returned as reassigned, i.e. stripped)
      some t2

/-- Embedding of `utils.parse_time_range` (utils.py:46-62). -/
def parse_time_range (time_range : String) : Option String × Option String :=
  if time_range = "" ∨ pyLower time_range = "na" then (none, none)
  else
    match pySplit time_range " - " with
    | [p1, p2] => (convert_time_to_24hr p1, convert_time_to_24hr p2)
    | _ => (none, none)

/-- Embedding of `utils.time_to_minutes` (utils.py:64-74): `none` models
`return None` (both the empty-string early return and the caught
`ValueError` of the two-component `int` unpack). -/
def time_to_minutes (time_str : String) : Option Int :=
  if time_str = "" then none
  else
    match pySplit time_str ":" with
    | [hs, ms] =>
      match pyInt hs, pyInt ms with
      | some h, some m => some (h * 60 + m)
      | _, _ => none
    | _ => none

/-- Embedding of `utils.calculate_shift_duration` (utils.py:104-116), in
minutes.  When either argument is the empty (falsy) string the source
returns 0; when either fails `time_to_minutes`, the source compares `None`
with `<`, raising an uncaught `TypeError` — modeled as `none`. -/
def calculate_shift_duration (start_time end_time : String) : Option Int :=
  if start_time = "" ∨ end_time = "" then some 0
  else
    match time_to_minutes start_time, time_to_minutes end_time with
    | some s, some e => some ((if e < s then e + 24 * 60 else e) - s)
    | _, _ => none

/-- Embedding of `utils.calculate_shift_duration_hours` (utils.py:118-121):
the minute count divided by 60 as an exact rational.  `mkRat m 60` is
`(m : ℚ) / 60` (theorem `mkRat_sixty_eq_div` below); the `mkRat` spelling
is used so that the definition evaluates inside the kernel. -/
def calculate_shift_duration_hours (start_time end_time : String) : Option ℚ :=
  (calculate_shift_duration start_time end_time).map (fun m => mkRat m 60)

/-- Kernel-evaluable spelling of rational addition: `ratAdd a b = a + b`
(theorem `ratAdd_eq_add` below); used where the source accumulates
`weekly_hours += duration_hours`. -/
def ratAdd (a b : ℚ) : ℚ :=
  mkRat (a.num * b.den + b.num * a.den) (a.den * b.den)

theorem ratAdd_eq_add (a b : ℚ) : ratAdd a b = a + b :=
  (Rat.add_def' a b).symm

theorem mkRat_sixty_eq_div (m : Int) : mkRat m 60 = (m : ℚ) / 60 := by
  rw [Rat.mkRat_eq_divInt, Rat.divInt_eq_div]
  norm_num

/-! ## Data model (worker records, schedule output) -/

/-- Availability window `{"start": …, "end": …}` as produced by the import
layer (both components canonical `HH:MM` strings when well-formed).  The
source key `end` is a Lean keyword, embedded as `end_`. -/
structure TimeWindow where
  start : String
  end_ : String
deriving DecidableEq, Repr

/-- Worker record as stored in `workers.json` (see `import_workers_from_excel`,
utils.py:266-276).  The weekday-keyed dicts are embedded as association
lists with first-match lookup. -/
structure Worker where
  id : String
  first_name : String
  last_name : String
  email : String
  work_study : Bool
  availability : List (String × List TimeWindow)
  unavailable : List (String × List (String × String))
  weekly_hours : ℚ
deriving DecidableEq, Repr

instance : Inhabited Worker :=
  ⟨⟨"", "", "", "", false, [], [], 0⟩⟩

/-- Python `d[k]` / `k in d` on a weekday-keyed dict, as association-list
lookup. -/
def dictFind {α : Type} (d : List (String × α)) (k : String) : Option α :=
  (d.find? (fun p => p.1 == k)).map Prod.snd

/-- One `shift` dict appended to a day of the schedule
(scheduler.py:91-97 and 108-114). -/
structure ShiftAssignment where
  start_time : String
  end_time : String
  worker_id : Option String
  worker_name : String
  duration_hours : ℚ
deriving DecidableEq, Repr

/-- One entry of the schedule's `workers` summary (scheduler.py:124-130). -/
structure WorkerSummary where
  id : String
  name : String
  email : String
  work_study : Bool
  weekly_hours : ℚ
deriving DecidableEq, Repr

/-- The schedule produced by `generate_schedule` (scheduler.py:39-43,
117-132).  The wall-clock `generated_at` string is omitted: it carries no
scheduling content. -/
structure Schedule where
  workplace : String
  days : List (String × List ShiftAssignment)
  workers : List WorkerSummary
deriving DecidableEq, Repr

/-! ## `utils.py` availability evaluator

`is_worker_available` (utils.py:333-366) converts its time strings with
`time_to_minutes` and then compares the resulting minute values with
`<=`/`>=`.  When a conversion returns `None`, the first comparison that
touches the `None` raises an uncaught `TypeError`; the `and`/`or`
short-circuiting of the source determines exactly which conversions are
reached.  The embedding returns `Option Bool`, with `none` for that raise,
and mirrors the short-circuit order. -/

/-- Inner scan of `worker["unavailable"][day]` (utils.py:356-362): the
source returns `False` for the whole function on the first overlapping
pair, `some true` here meaning "no overlap found, containment accepted".
The overlap test `not (shift_end <= u_start or shift_start >= u_end)`
short-circuits, so `u_end` is only converted when `shift_end > u_start`. -/
def checkUnavail (ss se : Int) : List (String × String) → Option Bool
  | [] => some true
  | (us, ue) :: rest =>
    match time_to_minutes us with
    | none => none
    | some a =>
      if se ≤ a then checkUnavail ss se rest
      else
        match time_to_minutes ue with
        | none => none
        | some b =>
          if ss ≥ b then checkUnavail ss se rest
          else some false

/-- Scan of `worker["availability"][day]` (utils.py:348-364).  The
containment test `avail_start <= shift_start and shift_end <= avail_end`
short-circuits, so a window's `end` is only converted once its `start`
bound admits the shift. -/
def availScan (w : Worker) (day : String) (ss se : Int) :
    List TimeWindow → Option Bool
  | [] => some false
  | tr :: rest =>
    match time_to_minutes tr.start with
    | none => none
    | some as_ =>
      if as_ ≤ ss then
        match time_to_minutes tr.end_ with
        | none => none
        | some ae =>
          if se ≤ ae then
            match dictFind w.unavailable day with
            | none => some true
            | some pairs => checkUnavail ss se pairs
          else availScan w day ss se rest
      else availScan w day ss se rest

/-- Embedding of `utils.is_worker_available` (utils.py:333-366). -/
def is_worker_available (w : Worker) (day start_time end_time : String) :
    Option Bool :=
  match dictFind w.availability day with
  | none => some false
  | some ranges =>
    -- the source converts the shift times here; `time_to_minutes` itself
    -- cannot raise, so the conversion commutes with the emptiness check
    if ranges = [] then some false
    else
      match time_to_minutes start_time, time_to_minutes end_time with
      | some ss, some se => availScan w day ss se ranges
      | _, _ =>
        -- a `None` shift bound reaches the first comparison of the first
        -- window (the list is non-empty) and raises
        match time_to_minutes (ranges.headD ⟨"", ""⟩).start with
        | none => none
        | some _ => none

/-- Embedding of `utils.get_available_workers` (utils.py:368-382). -/
def get_available_workers (workers : List Worker)
    (day start_time end_time : String) (exclude_workers : List String) :
    Option (List Worker) :=
  match workers with
  | [] => some []
  | w :: rest =>
    if w.id ∈ exclude_workers then
      get_available_workers rest day start_time end_time exclude_workers
    else
      match is_worker_available w day start_time end_time with
      | none => none
      | some b =>
        (get_available_workers rest day start_time end_time exclude_workers).map
          (fun l => if b then w :: l else l)

/-! ## Spec-side availability evaluator (for the refinement claim)

Modelled from the spec: section 4.2 step 3 words the exclusion check as
"reject this containment and continue scanning remaining available
windows", where the source instead returns `False` for the whole function
at the first overlapping pair.  The two definitions below follow the
spec's words; they are compared with `is_worker_available` in the
theorems. -/

/-- Modelled from the spec: "If ANY unavailable pair overlaps the candidate
window" — `some true` = an overlap exists.  Conversion order mirrors the
same short-circuit overlap test. -/
def hasOverlapSpec (ss se : Int) : List (String × String) → Option Bool
  | [] => some false
  | (us, ue) :: rest =>
    match time_to_minutes us with
    | none => none
    | some a =>
      if se ≤ a then hasOverlapSpec ss se rest
      else
        match time_to_minutes ue with
        | none => none
        | some b =>
          if ss ≥ b then hasOverlapSpec ss se rest
          else some true

/-- Modelled from the spec: window scan that, on an overlapping exclusion,
rejects only the current containment and continues with the remaining
available windows. -/
def availScanSpec (w : Worker) (day : String) (ss se : Int) :
    List TimeWindow → Option Bool
  | [] => some false
  | tr :: rest =>
    match time_to_minutes tr.start with
    | none => none
    | some as_ =>
      if as_ ≤ ss then
        match time_to_minutes tr.end_ with
        | none => none
        | some ae =>
          if se ≤ ae then
            match dictFind w.unavailable day with
            | none => some true
            | some pairs =>
              match hasOverlapSpec ss se pairs with
              | none => none
              | some true => availScanSpec w day ss se rest
              | some false => some true
          else availScanSpec w day ss se rest
      else availScanSpec w day ss se rest

/-- Modelled from the spec: `isAvailable` of section 4.2 with the
continue-scanning exclusion semantics; otherwise identical to
`is_worker_available`. -/
def is_worker_available_spec (w : Worker) (day start_time end_time : String) :
    Option Bool :=
  match dictFind w.availability day with
  | none => some false
  | some ranges =>
    if ranges = [] then some false
    else
      match time_to_minutes start_time, time_to_minutes end_time with
      | some ss, some se => availScanSpec w day ss se ranges
      | _, _ => none

/-! ## `scheduler.py` priority ranking

The ranking block (partition into work-study-under-5 and everyone else,
each sorted ascending by `weekly_hours` with Python's stable `list.sort`,
then concatenated) appears verbatim twice in the source:
`ScheduleGenerator.generate_schedule` (scheduler.py:74-84) and
`ScheduleGenerator.find_replacement_workers` (scheduler.py:268-278).  It
is embedded once, generically: `generate_schedule` instantiates it on
worker-list indices (Python sorts a list of references) and
`find_replacement_workers` on workers directly.  Python's `list.sort` is a
stable ascending sort by key; `List.insertionSort` with the reflexive key
order realizes exactly that (stability is proved below). -/

/-- Stable ascending sort by a rational key, modeling
`list.sort(key=lambda w: w["weekly_hours"])`. -/
def sortByKey {α : Type} (key : α → ℚ) (l : List α) : List α :=
  List.insertionSort (fun a b => key a ≤ key b) l

/-- The shared ranking block (scheduler.py:74-84 = scheduler.py:268-278).
`getW` reads the worker record out of a list element. -/
def rankByPriority {α : Type} (getW : α → Worker) (available_workers : List α) :
    List α :=
  let work_study_workers :=
    available_workers.filter
      (fun x => (getW x).work_study && decide ((getW x).weekly_hours < 5))
  let other_workers :=
    available_workers.filter
      (fun x => !(getW x).work_study || decide ((getW x).weekly_hours ≥ 5))
  sortByKey (fun x => (getW x).weekly_hours) work_study_workers ++
    sortByKey (fun x => (getW x).weekly_hours) other_workers

/-! ## `scheduler.py` schedule generation -/

/-- Per-day mutable state of `generate_schedule`: the worker pool (updated
in place in the source), the per-day `assigned_workers` set (a set of ids;
embedded as the list of insertions, membership being all the source uses)
and the growing `day_shifts` list. -/
structure GenState where
  workers : List Worker
  assigned : List String
  day_shifts : List ShiftAssignment
deriving Repr

/-- The list comprehension of scheduler.py:66-69 at the level of pool
positions: indices of workers that are selected, not yet assigned today,
and available.  The `and` short-circuits, so `is_worker_available` is only
evaluated (and can only raise) for selected, not-yet-assigned workers. -/
def collectAvailable (sel assigned : List String) (day st et : String) :
    Nat → List Worker → Option (List Nat)
  | _, [] => some []
  | i, w :: rest =>
    if w.id ∈ sel ∧ w.id ∉ assigned then
      match is_worker_available w day st et with
      | none => none
      | some b =>
        (collectAvailable sel assigned day st et (i + 1) rest).map
          (fun l => if b then i :: l else l)
    else collectAvailable sel assigned day st et (i + 1) rest

/-- Processing of one `shift_time_str` (scheduler.py:57-115).  `none`
models an uncaught exception (from `calculate_shift_duration` or
`is_worker_available` on unconvertible time strings). -/
def processShift (sel : List String) (day : String) (gs : GenState)
    (shift_time_str : String) : Option GenState :=
  match parse_time_range shift_time_str with
  | (some start_time, some end_time) =>
    if start_time = "" ∨ end_time = "" then some gs   -- falsy ⇒ `continue`
    else
      match calculate_shift_duration_hours start_time end_time with
      | none => none
      | some duration_hours =>
        match collectAvailable sel gs.assigned day start_time end_time 0 gs.workers with
        | none => none
        | some avail =>
          match rankByPriority (fun i => gs.workers.getD i default) avail with
          | i :: _ =>
            let w := gs.workers.getD i default
            some { workers := gs.workers.set i { w with weekly_hours := ratAdd w.weekly_hours duration_hours },
                   assigned := gs.assigned ++ [w.id],
                   day_shifts := gs.day_shifts ++
                     [⟨start_time, end_time, some w.id,
                       w.first_name ++ " " ++ w.last_name, duration_hours⟩] }
          | [] =>
            some { gs with day_shifts := gs.day_shifts ++
                     [⟨start_time, end_time, none, "UNASSIGNED", duration_hours⟩] }
  | _ => some gs   -- `if not start_time or not end_time: continue`

/-- Fold of `processShift` over one day's configured shift strings. -/
def processShifts (sel : List String) (day : String) (gs : GenState) :
    List String → Option GenState
  | [] => some gs
  | s :: rest =>
    match processShift sel day gs s with
    | none => none
    | some gs2 => processShifts sel day gs2 rest

/-- The fixed weekday iteration order of scheduler.py:49. -/
def weekOrder : List String :=
  ["Monday", "Tuesday", "Wednesday", "Thursday", "Friday", "Saturday", "Sunday"]

/-- Day loop of scheduler.py:49-119: days absent from `shift_times` are
skipped, a day is recorded only when it produced at least one shift. -/
def processDays (shift_times : List (String × List String)) (sel : List String)
    (workers : List Worker) :
    List String → Option (List Worker × List (String × List ShiftAssignment))
  | [] => some (workers, [])
  | day :: restDays =>
    match dictFind shift_times day with
    | none => processDays shift_times sel workers restDays
    | some dayStrs =>
      match processShifts sel day ⟨workers, [], []⟩ dayStrs with
      | none => none
      | some gs =>
        match processDays shift_times sel gs.workers restDays with
        | none => none
        | some (finalWorkers, days) =>
          some (finalWorkers,
                if gs.day_shifts = [] then days else (day, gs.day_shifts) :: days)

/-- Worker summary of scheduler.py:122-130, built from the (mutated)
selected workers in pool order. -/
def buildSummary (sel : List String) (workers : List Worker) :
    List WorkerSummary :=
  (workers.filter (fun w => decide (w.id ∈ sel))).map
    (fun w => ⟨w.id, w.first_name ++ " " ++ w.last_name, w.email,
               w.work_study, w.weekly_hours⟩)

/-- Embedding of `ScheduleGenerator.generate_schedule` (scheduler.py:30-132)
as a function of the loaded config (`shift_times`), workplace name, worker
pool and optional id selection.  Returns the schedule together with the
final worker pool (the source mutates `self.workers` in place); `none`
models an uncaught exception escaping the call. -/
def generate_schedule (shift_times : List (String × List String))
    (workplace_name : String) (workers : List Worker)
    (selected_worker_ids : Option (List String)) :
    Option (Schedule × List Worker) :=
  let sel := selected_worker_ids.getD (workers.map (fun w => w.id))
  match processDays shift_times sel workers weekOrder with
  | none => none
  | some (finalWorkers, days) =>
    some (⟨workplace_name, days, buildSummary sel finalWorkers⟩, finalWorkers)

/-- Embedding of the `weekly_hours` reset in `ScheduleGenerator.__init__`
(scheduler.py:26-28): every loaded worker's accumulator is forced to 0. -/
def initWorkers (workers : List Worker) : List Worker :=
  workers.map (fun w => { w with weekly_hours := 0 })

/-- One program-level generation run: `ScheduleGenerator(...)` (which
resets all `weekly_hours` to 0) followed by one `generate_schedule` call,
exactly as `main.py:873-876` drives it. -/
def generateScheduleRun (shift_times : List (String × List String))
    (workplace_name : String) (workers : List Worker)
    (selected_worker_ids : Option (List String)) :
    Option (Schedule × List Worker) :=
  generate_schedule shift_times workplace_name (initWorkers workers)
    selected_worker_ids

/-- The day-name normalization dict of scheduler.py:253-261. -/
def day_map : List (String × String) :=
  [("sunday", "Sunday"), ("monday", "Monday"), ("tuesday", "Tuesday"),
   ("wednesday", "Wednesday"), ("thursday", "Thursday"),
   ("friday", "Friday"), ("saturday", "Saturday")]

/-- Embedding of `ScheduleGenerator.find_replacement_workers`
(scheduler.py:250-280), as a function of the generator's worker pool. -/
def find_replacement_workers (workers : List Worker)
    (day start_time end_time : String) : Option (List Worker) :=
  let d := (dictFind day_map (pyLower day)).getD day
  (get_available_workers workers d start_time end_time []).map
    (rankByPriority (fun w => w))

/-- One program-level replacement query: `main.py:1232-1235` constructs a
fresh `ScheduleGenerator` (whose `__init__` resets every `weekly_hours` to
0) and immediately calls `find_replacement_workers` on it. -/
def findReplacementRun (workers : List Worker)
    (day start_time end_time : String) : Option (List Worker) :=
  find_replacement_workers (initWorkers workers) day start_time end_time

/-! ## Derived summaries used by the theorems -/

/-- Non-null worker ids of a day's assignment sequence, in order. -/
def someIds (shifts : List ShiftAssignment) : List String :=
  shifts.filterMap (fun a => a.worker_id)

/-- Total `duration_hours` of the assignments in one day referencing a
given worker id (spelled with `ratAdd` so that it evaluates inside the
kernel; equal to the `List.sum` of the matching durations by
`hoursIn_eq_sum` below). -/
def hoursIn (shifts : List ShiftAssignment) (i : String) : ℚ :=
  ((shifts.filter (fun a => a.worker_id == some i)).map
    (fun a => a.duration_hours)).foldr ratAdd 0

/-- Total `duration_hours` over all days referencing a given worker id. -/
def hoursInDays (days : List (String × List ShiftAssignment)) (i : String) : ℚ :=
  (days.map (fun p => hoursIn p.2 i)).foldr ratAdd 0

theorem foldr_ratAdd_eq_sum (l : List ℚ) : l.foldr ratAdd 0 = l.sum := by
  induction l with
  | nil => rfl
  | cons a t ih => simp [List.foldr_cons, ih, ratAdd_eq_add]

theorem hoursIn_eq_sum (shifts : List ShiftAssignment) (i : String) :
    hoursIn shifts i =
      ((shifts.filter (fun a => a.worker_id == some i)).map
        (fun a => a.duration_hours)).sum :=
  foldr_ratAdd_eq_sum _

theorem hoursInDays_eq_sum (days : List (String × List ShiftAssignment))
    (i : String) :
    hoursInDays days i = (days.map (fun p => hoursIn p.2 i)).sum :=
  foldr_ratAdd_eq_sum _

/-- Equality of every worker field except the `weekly_hours` accumulator. -/
def frameEq (a b : Worker) : Prop :=
  a.id = b.id ∧ a.first_name = b.first_name ∧ a.last_name = b.last_name ∧
  a.email = b.email ∧ a.work_study = b.work_study ∧
  a.availability = b.availability ∧ a.unavailable = b.unavailable

/-- Boolean well-formedness of one worker record's time strings (the
canonical-form obligation of spec section 6 on `availability` and
`unavailable` entries). -/
def workerTimesValidB (w : Worker) : Bool :=
  w.availability.all (fun p => p.2.all
    (fun tr => (time_to_minutes tr.start).isSome && (time_to_minutes tr.end_).isSome)) &&
  w.unavailable.all (fun p => p.2.all
    (fun q => (time_to_minutes q.1).isSome && (time_to_minutes q.2).isSome))

/-- Boolean well-formedness of the declared availability windows of one
worker on one day. -/
def dayWindowsValidB (w : Worker) (day : String) : Bool :=
  ((dictFind w.availability day).getD []).all
    (fun tr => (time_to_minutes tr.start).isSome && (time_to_minutes tr.end_).isSome)

/-- Boolean acceptability of one configured shift-time string: its parse
either fails cleanly (the engine skips the slot) or produces times that
`time_to_minutes` accepts. -/
def shiftStrOk (s : String) : Bool :=
  match parse_time_range s with
  | (some st, some et) =>
    if st = "" || et = "" then true
    else (time_to_minutes st).isSome && (time_to_minutes et).isSome
  | _ => true

/-- Boolean test that a shift-time string is one the engine skips
(scheduler.py:59-60): a parse component absent or falsy. -/
def shiftSkipped (s : String) : Bool :=
  match parse_time_range s with
  | (some st, some et) => st = "" || et = ""
  | _ => true

/-! ## Helper lemmas: the stable sort -/

theorem map_orderedInsert_key {α β : Type} (key : β → ℚ) (f : α → β) (a : α)
    (l : List α) :
    (List.orderedInsert (fun x y => key (f x) ≤ key (f y)) a l).map f =
      List.orderedInsert (fun x y => key x ≤ key y) (f a) (l.map f) := by
  induction l with
  | nil => rfl
  | cons b t ih =>
    simp only [List.orderedInsert, List.map_cons]
    by_cases h : key (f a) ≤ key (f b)
    · rw [if_pos h, if_pos h]; rfl
    · rw [if_neg h, if_neg h]; simp [ih]

theorem map_sortByKey {α β : Type} (key : β → ℚ) (f : α → β) (l : List α) :
    (sortByKey (fun x => key (f x)) l).map f = sortByKey key (l.map f) := by
  induction l with
  | nil => rfl
  | cons a t ih =>
    simp only [sortByKey, List.insertionSort, List.map_cons] at ih ⊢
    rw [map_orderedInsert_key, ih]

theorem filter_key_orderedInsert {α : Type} (key : α → ℚ) (x : ℚ) (a : α)
    (l : List α) :
    (List.orderedInsert (fun u v => key u ≤ key v) a l).filter
        (fun y => decide (key y = x)) =
      ((a :: l).filter (fun y => decide (key y = x))) := by
  induction l with
  | nil => rfl
  | cons b t ih =>
    simp only [List.orderedInsert]
    by_cases h : key a ≤ key b
    · rw [if_pos h]
    · rw [if_neg h]
      by_cases ha : key a = x
      · have hb : ¬ (key b = x) := by
          intro hb; exact h (by rw [ha, hb])
        simp [List.filter_cons, ha, hb, ih]
      · simp [List.filter_cons, ha, ih]

theorem filter_key_sortByKey {α : Type} (key : α → ℚ) (x : ℚ) (l : List α) :
    (sortByKey key l).filter (fun y => decide (key y = x)) =
      l.filter (fun y => decide (key y = x)) := by
  induction l with
  | nil => rfl
  | cons a t ih =>
    simp only [sortByKey, List.insertionSort] at ih ⊢
    rw [filter_key_orderedInsert]
    simp only [List.filter_cons] at ih ⊢
    by_cases ha : key a = x
    · simp [ha, ih]
    · simp [ha, ih]

theorem sorted_sortByKey {α : Type} (key : α → ℚ) (l : List α) :
    (sortByKey key l).Sorted (fun a b => key a ≤ key b) := by
  haveI : IsTotal α (fun a b => key a ≤ key b) := ⟨fun a b => le_total _ _⟩
  haveI : IsTrans α (fun a b => key a ≤ key b) :=
    ⟨fun a b c hab hbc => le_trans hab hbc⟩
  exact List.sorted_insertionSort _ l

theorem mem_sortByKey {α : Type} (key : α → ℚ) (l : List α) (x : α) :
    x ∈ sortByKey key l ↔ x ∈ l :=
  (List.perm_insertionSort _ l).mem_iff

theorem mem_of_mem_rank {α : Type} (getW : α → Worker) (l : List α) (x : α)
    (h : x ∈ rankByPriority getW l) : x ∈ l := by
  unfold rankByPriority at h
  rcases List.mem_append.mp h with h1 | h1 <;>
    exact List.mem_of_mem_filter ((mem_sortByKey _ _ _).mp h1)

/-! ## Priority-ranking claim (C3) -/

/-- Work-study worker A with 2 accumulated hours (the priority example of
spec section 8). -/
def exWorkerA : Worker := ⟨"A", "A", "WorkStudy", "", true, [], [], 2⟩

/-- Work-study worker B with 6 accumulated hours. -/
def exWorkerB : Worker := ⟨"B", "B", "WorkStudy", "", true, [], [], 6⟩

/-- Non-work-study worker C with 0 accumulated hours. -/
def exWorkerC : Worker := ⟨"C", "C", "NonStudy", "", false, [], [], 0⟩

theorem rank_other_filter (l : List Worker) :
    l.filter (fun w => !w.work_study || decide (w.weekly_hours ≥ 5)) =
      l.filter (fun w => !(w.work_study && decide (w.weekly_hours < 5))) := by
  apply List.filter_congr
  intro w _
  cases hw : w.work_study
  · simp
  · by_cases h : w.weekly_hours < 5
    · simp [h, not_le.mpr h]
    · simp [h, not_lt.mp h]

/-- C3: the priority ranking shared by the assignment engine
(scheduler.py:74-84) and `find_replacement_workers` (scheduler.py:268-278)
(i) coincides between its two instantiations (on pool indices and on
worker records), (ii) is the concatenation of the work-study-under-5
partition and the everyone-else partition, (iii) with each partition
sorted ascending by `weekly_hours`, (iv) stably — the equal-hours
subsequence of each partition is kept in input order — and (v) orders the
spec's example (work-study A at 2h, work-study B at 6h, non-work-study C
at 0h) as [A, C, B]. -/
theorem priority_ranking_correct :
    (∀ (ws : List Worker) (idxs : List Nat),
      (rankByPriority (fun i => ws.getD i default) idxs).map
          (fun i => ws.getD i default) =
        rankByPriority (fun w => w) (idxs.map (fun i => ws.getD i default))) ∧
    (∀ l : List Worker,
      rankByPriority (fun w => w) l =
        sortByKey Worker.weekly_hours
            (l.filter (fun w => w.work_study && decide (w.weekly_hours < 5))) ++
          sortByKey Worker.weekly_hours
            (l.filter (fun w => !(w.work_study && decide (w.weekly_hours < 5))))) ∧
    (∀ l : List Worker,
      (sortByKey Worker.weekly_hours l).Sorted
        (fun a b => a.weekly_hours ≤ b.weekly_hours)) ∧
    (∀ (l : List Worker) (x : ℚ),
      (sortByKey Worker.weekly_hours l).filter
          (fun w => decide (w.weekly_hours = x)) =
        l.filter (fun w => decide (w.weekly_hours = x))) ∧
    rankByPriority (fun w => w) [exWorkerA, exWorkerB, exWorkerC] =
      [exWorkerA, exWorkerC, exWorkerB] := by
  refine ⟨?_, ?_, ?_, ?_, ?_⟩
  · intro ws idxs
    unfold rankByPriority
    rw [List.map_append,
        map_sortByKey Worker.weekly_hours (fun i => ws.getD i default),
        map_sortByKey Worker.weekly_hours (fun i => ws.getD i default),
        List.filter_map, List.filter_map]
    rfl
  · intro l
    unfold rankByPriority
    rw [rank_other_filter]
  · intro l
    exact sorted_sortByKey Worker.weekly_hours l
  · intro l x
    exact filter_key_sortByKey Worker.weekly_hours x l
  · decide

/-! ## Duration claim (C6) -/

/-- C6: for well-formed 24-hour times (minute offsets in [0, 1440)), the
shift duration in minutes is `end - start` with 1440 added to `end` first
when `end < start`, the result is never negative (also after the division
by 60 into hours), and the two concrete examples evaluate to 8.0 and 4.0
hours. -/
theorem duration_correct (s e : String) (ms me : Int)
    (hs : time_to_minutes s = some ms) (he : time_to_minutes e = some me)
    (hms0 : 0 ≤ ms) (hms1 : ms < 1440) (hme0 : 0 ≤ me) (hme1 : me < 1440) :
    calculate_shift_duration s e = some ((if me < ms then me + 1440 else me) - ms) ∧
    0 ≤ (if me < ms then me + 1440 else me) - ms ∧
    (∃ d : ℚ, calculate_shift_duration_hours s e = some d ∧ 0 ≤ d) ∧
    calculate_shift_duration_hours "09:00" "17:00" = some 8 ∧
    calculate_shift_duration_hours "22:00" "02:00" = some 4 := by
  have hsne : s ≠ "" := by
    intro hcon; rw [hcon] at hs; simp [time_to_minutes] at hs
  have hene : e ≠ "" := by
    intro hcon; rw [hcon] at he; simp [time_to_minutes] at he
  have h1 : calculate_shift_duration s e =
      some ((if me < ms then me + 1440 else me) - ms) := by
    unfold calculate_shift_duration
    rw [if_neg (by tauto), hs, he]
    norm_num
  have h2 : 0 ≤ (if me < ms then me + 1440 else me) - ms := by
    by_cases hlt : me < ms
    · rw [if_pos hlt]; linarith
    · rw [if_neg hlt]; push_neg at hlt; linarith
  refine ⟨h1, h2, ⟨mkRat ((if me < ms then me + 1440 else me) - ms) 60, ?_, ?_⟩,
    by decide, by decide⟩
  · unfold calculate_shift_duration_hours
    rw [h1]; rfl
  · rw [mkRat_sixty_eq_div]
    apply div_nonneg
    · exact_mod_cast h2
    · norm_num

/-- Witness for C6 at the concrete daytime pair 09:00–17:00. -/
theorem duration_correct_witness :
    time_to_minutes "09:00" = some 540 ∧ time_to_minutes "17:00" = some 1020 ∧
    (calculate_shift_duration "09:00" "17:00" =
        some ((if (1020 : Int) < 540 then 1020 + 1440 else 1020) - 540) ∧
      (0 : Int) ≤ (if (1020 : Int) < 540 then 1020 + 1440 else 1020) - 540 ∧
      (∃ d : ℚ, calculate_shift_duration_hours "09:00" "17:00" = some d ∧ 0 ≤ d) ∧
      calculate_shift_duration_hours "09:00" "17:00" = some 8 ∧
      calculate_shift_duration_hours "22:00" "02:00" = some 4) :=
  ⟨by decide, by decide,
    duration_correct "09:00" "17:00" 540 1020 (by decide) (by decide)
      (by decide) (by decide) (by decide) (by decide)⟩

/-! ## Time-parse claim (C7) -/

/-- C7 counterexample: the input "2:00 p.m." — one of the forms the claim
lists as recognized ("with or without periods in the meridiem marker") —
contains no contiguous "am"/"pm" substring, so the source's branch test
sends it to the 24-hour passthrough: the call returns the input unchanged,
neither the canonical "14:00" nor the absent value the claim would require
for an unrecognized input. -/
theorem convert_time_cex :
    convert_time_to_24hr "2:00 p.m." = some "2:00 p.m." ∧
    convert_time_to_24hr "2:00 p.m." ≠ some "14:00" ∧
    convert_time_to_24hr "2:00 p.m." ≠ none := by
  refine ⟨by decide, by decide, by decide⟩

/-- Derived from the source: the stripped first " - "-separated part of
the input — the value the local `time_str` holds after utils.py:16-21
(the whole stripped input when no " - " occurs). -/
def convert_first_part (time_str : String) : String :=
  pyStrip (if strContains time_str " - " then (pySplit time_str " - ").headD ""
           else time_str)

/-- Derived from the source: the string `convert_time_to_24hr` hands to
`strptime` (utils.py:26-37) — the lowercased first part with the marker
replacements and the no-colon normalization applied. -/
def convert_normalized (time_str : String) : String :=
  let t2 := convert_first_part time_str
  let t3 := pyReplace (pyReplace (pyLower t2) "am" " AM") "pm" " PM"
  let t4 := pyReplace (pyReplace t3 "a.m." " AM") "p.m." " PM"
  if ¬ strContains t4 ":" ∧ t4.data.any Char.isDigit then
    String.mk (t4.data.filter Char.isDigit) ++ ":00 " ++
      (if strContains (pyLower t4) "am" then "AM" else "PM")
  else t4

/-- Restatement of `convert_time_to_24hr` through the two named
intermediate values; definitional. -/
theorem convert_time_structure (s : String) :
    convert_time_to_24hr s =
      if pyLower s = "na" ∨ s = "" then none
      else if strContains (pyLower (convert_first_part s)) "am" ∨
              strContains (pyLower (convert_first_part s)) "pm" then
        match strptimeIMp (convert_normalized s) with
        | none => none
        | some (h, m, pm) => some (strftimeHM (hour24 h pm) m)
      else some (convert_first_part s) := by
  unfold convert_time_to_24hr convert_first_part convert_normalized
  dsimp only
  rfl

/-- C7 amended: `convert_time_to_24hr` never raises (every failure is the
absent value).  Writing `first` for the stripped first " - "-separated
part of the input (the whole stripped input when no " - " occurs,
`convert_first_part`): the call returns the absent value exactly when the
input is empty, equals "na" case-insensitively, or `first` contains a
contiguous case-insensitive "am"/"pm" substring but the normalized string
fails the 12-hour parse; when `first` has such a marker and the parse
succeeds, the canonical 24-hour form is returned ("2pm", "2:00pm",
"2:00 PM" all give "14:00", and "13:00pm" fails to the absent value); and
when `first` has no marker, `first` itself is returned — "14:00" passes
through, "14:00 - 16:00" yields "14:00" (the first range part), and
"p.m." forms with periods or arbitrary non-time text come back as the
stripped first part, not absent. -/
theorem convert_time_amended :
    convert_time_to_24hr "" = none ∧
    convert_time_to_24hr "na" = none ∧
    convert_time_to_24hr "NA" = none ∧
    convert_time_to_24hr "2pm" = some "14:00" ∧
    convert_time_to_24hr "2:00pm" = some "14:00" ∧
    convert_time_to_24hr "2:00 PM" = some "14:00" ∧
    convert_time_to_24hr "14:00" = some "14:00" ∧
    convert_time_to_24hr "14:00 - 16:00" = some "14:00" ∧
    convert_time_to_24hr "13:00pm" = none ∧
    (∀ s : String,
      convert_time_to_24hr s = none ↔
        (pyLower s = "na" ∨ s = "" ∨
          ((strContains (pyLower (convert_first_part s)) "am" = true ∨
            strContains (pyLower (convert_first_part s)) "pm" = true) ∧
            strptimeIMp (convert_normalized s) = none))) ∧
    (∀ s : String, pyLower s ≠ "na" → s ≠ "" →
      strContains (pyLower (convert_first_part s)) "am" = false →
      strContains (pyLower (convert_first_part s)) "pm" = false →
      convert_time_to_24hr s = some (convert_first_part s)) ∧
    (∀ (s : String) (h m : Nat) (pm : Bool), pyLower s ≠ "na" → s ≠ "" →
      (strContains (pyLower (convert_first_part s)) "am" = true ∨
        strContains (pyLower (convert_first_part s)) "pm" = true) →
      strptimeIMp (convert_normalized s) = some (h, m, pm) →
      convert_time_to_24hr s = some (strftimeHM (hour24 h pm) m)) := by
  refine ⟨by decide, by decide, by decide, by decide, by decide, by decide,
    by decide, by decide, by decide, ?_, ?_, ?_⟩
  · intro s
    rw [convert_time_structure s]
    by_cases h1 : pyLower s = "na" ∨ s = ""
    · rw [if_pos h1]
      constructor
      · intro _
        rcases h1 with h | h
        · exact Or.inl h
        · exact Or.inr (Or.inl h)
      · intro _
        rfl
    · rw [if_neg h1]
      push_neg at h1
      by_cases h2 : strContains (pyLower (convert_first_part s)) "am" = true ∨
          strContains (pyLower (convert_first_part s)) "pm" = true
      · rw [if_pos h2]
        cases hstrp : strptimeIMp (convert_normalized s) with
        | none =>
          dsimp only
          constructor
          · intro _
            exact Or.inr (Or.inr ⟨h2, rfl⟩)
          · intro _
            rfl
        | some trip =>
          obtain ⟨hh, hmm, hpm⟩ := trip
          dsimp only
          constructor
          · intro hcon
            exact absurd hcon (by simp)
          · intro hdisj
            rcases hdisj with h | h | ⟨_, hnone⟩
            · exact absurd h h1.1
            · exact absurd h h1.2
            · exact absurd hnone (by simp)
      · rw [if_neg h2]
        constructor
        · intro hcon
          exact absurd hcon (by simp)
        · intro hdisj
          rcases hdisj with h | h | ⟨hmk, _⟩
          · exact absurd h h1.1
          · exact absurd h h1.2
          · exact absurd hmk h2
  · intro s hna hne ham hpm2
    rw [convert_time_structure s, if_neg (by tauto),
      if_neg (by simp [ham, hpm2])]
  · intro s hh hmm hpm hna hne hmarker hstrp
    rw [convert_time_structure s, if_neg (not_or.mpr ⟨hna, hne⟩), if_pos hmarker]
    rw [hstrp]

/-- Witness for C7 (amended) at the range input "14:00 - 16:00", where the
first " - "-separated part "14:00" (no am/pm marker) is returned. -/
theorem convert_time_amended_witness :
    pyLower "14:00 - 16:00" ≠ "na" ∧ ("14:00 - 16:00" : String) ≠ "" ∧
    strContains (pyLower (convert_first_part "14:00 - 16:00")) "am" = false ∧
    strContains (pyLower (convert_first_part "14:00 - 16:00")) "pm" = false ∧
    convert_first_part "14:00 - 16:00" = "14:00" ∧
    convert_time_to_24hr "14:00 - 16:00" =
      some (convert_first_part "14:00 - 16:00") :=
  ⟨by decide, by decide, by decide, by decide, by decide,
    convert_time_amended.2.2.2.2.2.2.2.2.2.2.1 "14:00 - 16:00" (by decide)
      (by decide) (by decide) (by decide)⟩

/-! ## Availability claims (C4, C5) -/

theorem availScan_true_containment (w : Worker) (day : String) (ss se : Int)
    (l : List TimeWindow) (h : availScan w day ss se l = some true) :
    ∃ tr ∈ l, ∃ a b : Int, time_to_minutes tr.start = some a ∧
      time_to_minutes tr.end_ = some b ∧ a ≤ ss ∧ se ≤ b := by
  induction l with
  | nil => simp [availScan] at h
  | cons tr rest ih =>
    unfold availScan at h
    split at h
    · exact absurd h (by simp)
    · rename_i a hstart
      split at h
      · rename_i hle
        split at h
        · exact absurd h (by simp)
        · rename_i b hend
          split at h
          · rename_i hse
            exact ⟨tr, List.mem_cons_self tr rest, a, b, hstart, hend, hle, hse⟩
          · obtain ⟨tr2, hmem, hrest⟩ := ih h
            exact ⟨tr2, List.mem_cons_of_mem tr hmem, hrest⟩
      · obtain ⟨tr2, hmem, hrest⟩ := ih h
        exact ⟨tr2, List.mem_cons_of_mem tr hmem, hrest⟩

theorem availScan_false_no_containment (w : Worker) (day : String) (ss se : Int)
    (l : List TimeWindow)
    (hval : l.all (fun tr => (time_to_minutes tr.start).isSome &&
      (time_to_minutes tr.end_).isSome) = true)
    (hno : ∀ tr ∈ l, ∀ a b : Int, time_to_minutes tr.start = some a →
      time_to_minutes tr.end_ = some b → ¬(a ≤ ss ∧ se ≤ b)) :
    availScan w day ss se l = some false := by
  induction l with
  | nil => rfl
  | cons tr rest ih =>
    simp only [List.all_cons, Bool.and_eq_true] at hval
    obtain ⟨⟨hv1, hv2⟩, hvrest⟩ := hval
    obtain ⟨a, ha⟩ := Option.isSome_iff_exists.mp hv1
    obtain ⟨b, hb⟩ := Option.isSome_iff_exists.mp hv2
    unfold availScan
    simp only [ha, hb]
    by_cases hle : a ≤ ss
    · rw [if_pos hle]
      have hnse : ¬ se ≤ b := fun hse =>
        hno tr (List.mem_cons_self tr rest) a b ha hb ⟨hle, hse⟩
      rw [if_neg hnse]
      exact ih hvrest (fun tr2 hm => hno tr2 (List.mem_cons_of_mem tr hm))
    · rw [if_neg hle]
      exact ih hvrest (fun tr2 hm => hno tr2 (List.mem_cons_of_mem tr hm))

/-- C4: `is_worker_available` returns false when the day is absent from the
availability mapping or maps to an empty sequence; it returns true only
when some declared window on that day fully contains the candidate window
(in minutes); and (for well-formed windows) it returns false whenever no
declared window fully contains the candidate — in particular when every
window only partially overlaps it. -/
theorem availability_requires_containment (w : Worker) (day st et : String) :
    ((dictFind w.availability day = none ∨ dictFind w.availability day = some []) →
      is_worker_available w day st et = some false) ∧
    (∀ ss se : Int, time_to_minutes st = some ss → time_to_minutes et = some se →
      is_worker_available w day st et = some true →
      ∃ ranges, dictFind w.availability day = some ranges ∧
        ∃ tr ∈ ranges, ∃ a b : Int,
          time_to_minutes tr.start = some a ∧ time_to_minutes tr.end_ = some b ∧
          a ≤ ss ∧ se ≤ b) ∧
    (∀ ss se : Int, time_to_minutes st = some ss → time_to_minutes et = some se →
      ∀ ranges, dictFind w.availability day = some ranges →
      dayWindowsValidB w day = true →
      (∀ tr ∈ ranges, ∀ a b : Int, time_to_minutes tr.start = some a →
        time_to_minutes tr.end_ = some b → ¬(a ≤ ss ∧ se ≤ b)) →
      is_worker_available w day st et = some false) := by
  refine ⟨?_, ?_, ?_⟩
  · intro hday
    unfold is_worker_available
    rcases hday with hday | hday <;> simp [hday]
  · intro ss se hss hse htrue
    unfold is_worker_available at htrue
    cases hd : dictFind w.availability day with
    | none => rw [hd] at htrue; simp at htrue
    | some ranges =>
      rw [hd] at htrue
      dsimp only at htrue
      by_cases hnil : ranges = []
      · rw [if_pos hnil] at htrue; exact absurd htrue (by simp)
      · rw [if_neg hnil] at htrue
        simp only [hss, hse] at htrue
        exact ⟨ranges, rfl, availScan_true_containment w day ss se ranges htrue⟩
  · intro ss se hss hse ranges hd hvalid hno
    unfold is_worker_available
    rw [hd]
    dsimp only
    by_cases hnil : ranges = []
    · rw [if_pos hnil]
    · rw [if_neg hnil]
      simp only [hss, hse]
      unfold dayWindowsValidB at hvalid
      rw [hd] at hvalid
      exact availScan_false_no_containment w day ss se ranges hvalid hno

/-- Witness for C4 at a concrete worker (Monday window 09:00–17:00) and
candidate window 10:00–12:00, which the worker is available for. -/
theorem availability_requires_containment_witness :
    time_to_minutes "10:00" = some 600 ∧ time_to_minutes "12:00" = some 720 ∧
    is_worker_available ⟨"u", "U", "V", "", false,
      [("Monday", [⟨"09:00", "17:00"⟩])], [], 0⟩ "Monday" "10:00" "12:00" =
      some true ∧
    (∃ ranges, dictFind (Worker.availability ⟨"u", "U", "V", "", false,
        [("Monday", [⟨"09:00", "17:00"⟩])], [], 0⟩) "Monday" = some ranges ∧
      ∃ tr ∈ ranges, ∃ a b : Int,
        time_to_minutes tr.start = some a ∧ time_to_minutes tr.end_ = some b ∧
        a ≤ 600 ∧ 720 ≤ b) :=
  ⟨by decide, by decide, by decide,
    (availability_requires_containment ⟨"u", "U", "V", "", false,
      [("Monday", [⟨"09:00", "17:00"⟩])], [], 0⟩ "Monday" "10:00" "12:00").2.1
      600 720 (by decide) (by decide) (by decide)⟩

theorem checkUnavail_eq_not_overlap (ss se : Int) (l : List (String × String)) :
    checkUnavail ss se l = (hasOverlapSpec ss se l).map (fun b => !b) := by
  induction l with
  | nil => rfl
  | cons p rest ih =>
    obtain ⟨us, ue⟩ := p
    unfold checkUnavail hasOverlapSpec
    cases hus : time_to_minutes us with
    | none => rfl
    | some a =>
      dsimp only
      by_cases h1 : se ≤ a
      · rw [if_pos h1, if_pos h1, ih]
      · rw [if_neg h1, if_neg h1]
        cases hue : time_to_minutes ue with
        | none => rfl
        | some b =>
          dsimp only
          by_cases h2 : ss ≥ b
          · rw [if_pos h2, if_pos h2, ih]
          · rw [if_neg h2, if_neg h2]; rfl

theorem availScanSpec_false_of_overlap (w : Worker) (day : String)
    (ss se : Int) (pairs : List (String × String))
    (hpairs : dictFind w.unavailable day = some pairs)
    (hov : hasOverlapSpec ss se pairs = some true) (l : List TimeWindow)
    (hval : l.all (fun tr => (time_to_minutes tr.start).isSome &&
      (time_to_minutes tr.end_).isSome) = true) :
    availScanSpec w day ss se l = some false := by
  induction l with
  | nil => rfl
  | cons tr rest ih =>
    simp only [List.all_cons, Bool.and_eq_true] at hval
    obtain ⟨⟨hv1, hv2⟩, hvrest⟩ := hval
    obtain ⟨a, ha⟩ := Option.isSome_iff_exists.mp hv1
    obtain ⟨b, hb⟩ := Option.isSome_iff_exists.mp hv2
    unfold availScanSpec
    simp only [ha, hb]
    by_cases hle : a ≤ ss
    · rw [if_pos hle]
      by_cases hse : se ≤ b
      · rw [if_pos hse, hpairs]
        dsimp only
        rw [hov]
        exact ih hvrest
      · rw [if_neg hse]
        exact ih hvrest
    · rw [if_neg hle]
      exact ih hvrest

theorem availScan_eq_spec (w : Worker) (day : String) (ss se : Int)
    (l : List TimeWindow)
    (hval : l.all (fun tr => (time_to_minutes tr.start).isSome &&
      (time_to_minutes tr.end_).isSome) = true) :
    availScan w day ss se l = availScanSpec w day ss se l := by
  induction l with
  | nil => rfl
  | cons tr rest ih =>
    simp only [List.all_cons, Bool.and_eq_true] at hval
    obtain ⟨⟨hv1, hv2⟩, hvrest⟩ := hval
    obtain ⟨a, ha⟩ := Option.isSome_iff_exists.mp hv1
    obtain ⟨b, hb⟩ := Option.isSome_iff_exists.mp hv2
    unfold availScan availScanSpec
    simp only [ha, hb]
    by_cases hle : a ≤ ss
    · rw [if_pos hle, if_pos hle]
      by_cases hse : se ≤ b
      · rw [if_pos hse, if_pos hse]
        cases hp : dictFind w.unavailable day with
        | none => rfl
        | some pairs =>
          dsimp only
          rw [checkUnavail_eq_not_overlap]
          cases hov : hasOverlapSpec ss se pairs with
          | none => rfl
          | some ob =>
            cases ob with
            | false => rfl
            | true =>
              dsimp only [Option.map]
              exact (availScanSpec_false_of_overlap w day ss se pairs hp hov
                rest hvrest).symm
      · rw [if_neg hse, if_neg hse]
        exact ih hvrest
    · rw [if_neg hle, if_neg hle]
      exact ih hvrest

/-- C5: with well-formed windows on the queried day, `is_worker_available`
and the spec-worded evaluator (which, on an overlapping exclusion, rejects
only the current containment and continues scanning the remaining
available windows, returning true at a later containment with no
overlapping exclusion) agree on every input.  The source's early
`return False` is observably equivalent because the exclusion test does
not depend on which available window matched. -/
theorem availability_exclusion_scan_equiv (w : Worker) (day st et : String)
    (h : dayWindowsValidB w day = true) :
    is_worker_available w day st et = is_worker_available_spec w day st et := by
  unfold is_worker_available is_worker_available_spec
  cases hd : dictFind w.availability day with
  | none => rfl
  | some ranges =>
    dsimp only
    by_cases hnil : ranges = []
    · rw [if_pos hnil, if_pos hnil]
    · rw [if_neg hnil, if_neg hnil]
      unfold dayWindowsValidB at h
      rw [hd] at h
      cases hss : time_to_minutes st with
      | none =>
        cases hse : time_to_minutes et with
        | none => dsimp only; cases time_to_minutes (ranges.headD ⟨"", ""⟩).start <;> rfl
        | some se => dsimp only; cases time_to_minutes (ranges.headD ⟨"", ""⟩).start <;> rfl
      | some ss =>
        cases hse : time_to_minutes et with
        | none => dsimp only; cases time_to_minutes (ranges.headD ⟨"", ""⟩).start <;> rfl
        | some se => exact availScan_eq_spec w day ss se ranges h

/-- Witness for C5: a worker with two Monday windows both containing the
candidate 13:00–14:00 and an unavailable pair overlapping it — the claim's
scenario — on which both evaluators agree (both reject). -/
theorem availability_exclusion_scan_equiv_witness :
    dayWindowsValidB ⟨"u", "U", "V", "", false,
      [("Monday", [⟨"12:00", "14:00"⟩, ⟨"12:00", "21:00"⟩])],
      [("Monday", [("13:00", "14:00")])], 0⟩ "Monday" = true ∧
    is_worker_available ⟨"u", "U", "V", "", false,
      [("Monday", [⟨"12:00", "14:00"⟩, ⟨"12:00", "21:00"⟩])],
      [("Monday", [("13:00", "14:00")])], 0⟩ "Monday" "13:00" "14:00" =
    is_worker_available_spec ⟨"u", "U", "V", "", false,
      [("Monday", [⟨"12:00", "14:00"⟩, ⟨"12:00", "21:00"⟩])],
      [("Monday", [("13:00", "14:00")])], 0⟩ "Monday" "13:00" "14:00" :=
  ⟨by decide,
    availability_exclusion_scan_equiv ⟨"u", "U", "V", "", false,
      [("Monday", [⟨"12:00", "14:00"⟩, ⟨"12:00", "21:00"⟩])],
      [("Monday", [("13:00", "14:00")])], 0⟩ "Monday" "13:00" "14:00"
      (by decide)⟩

/-! ## Replacement-query claim (C9) -/

/-- Work-study worker with persisted `weekly_hours` 6 (as stored after a
previous schedule run). -/
def persistedB : Worker :=
  ⟨"b", "Bea", "Study", "", true, [("Monday", [⟨"09:00", "17:00"⟩])], [], 6⟩

/-- Non-work-study worker with persisted `weekly_hours` 0. -/
def persistedC : Worker :=
  ⟨"c", "Cal", "Crew", "", false, [("Monday", [⟨"09:00", "17:00"⟩])], [], 0⟩

/-- C9 counterexample: the program path (main.py:1232-1235 constructs a
fresh `ScheduleGenerator`, whose `__init__` at scheduler.py:26-28 resets
every `weekly_hours` to 0, then queries) ranks the work-study worker with
persisted 6 hours FIRST — it is ranked as a work-study worker under 5
hours because the reset zeroed it — whereas ranking against the persisted
values, as the claim states, would put the 0-hour non-work-study worker
first.  The two results differ, refuting the claim. -/
theorem replacement_reset_cex :
    (findReplacementRun [persistedB, persistedC] "Monday" "10:00" "12:00").map
        (List.map Worker.id) = some ["b", "c"] ∧
    (find_replacement_workers [persistedB, persistedC] "Monday" "10:00"
        "12:00").map (List.map Worker.id) = some ["c", "b"] ∧
    findReplacementRun [persistedB, persistedC] "Monday" "10:00" "12:00" ≠
      find_replacement_workers [persistedB, persistedC] "Monday" "10:00"
        "12:00" := by
  refine ⟨by decide, by decide, by decide⟩

theorem mem_get_available (day st et : String) (ex : List String) :
    ∀ (workers res : List Worker),
      get_available_workers workers day st et ex = some res →
      ∀ x ∈ res, x ∈ workers := by
  intro workers
  induction workers with
  | nil =>
    intro res h x hx
    unfold get_available_workers at h
    simp at h
    subst h
    simp at hx
  | cons w rest ih =>
    intro res h x hx
    unfold get_available_workers at h
    by_cases hex : w.id ∈ ex
    · rw [if_pos hex] at h
      exact List.mem_cons_of_mem w (ih res h x hx)
    · rw [if_neg hex] at h
      cases hiwa : is_worker_available w day st et with
      | none => rw [hiwa] at h; simp at h
      | some b =>
        rw [hiwa] at h
        dsimp only at h
        cases hrec : get_available_workers rest day st et ex with
        | none => rw [hrec] at h; simp at h
        | some l2 =>
          rw [hrec] at h
          cases b with
          | false =>
            simp at h
            subst h
            exact List.mem_cons_of_mem w (ih l2 hrec x hx)
          | true =>
            simp at h
            subst h
            rcases List.mem_cons.mp hx with hx | hx
            · simp [hx]
            · exact List.mem_cons_of_mem w (ih l2 hrec x hx)

theorem sortByKey_const {α : Type} (key : α → ℚ) (c : ℚ) (l : List α)
    (h : ∀ x ∈ l, key x = c) : sortByKey key l = l := by
  induction l with
  | nil => rfl
  | cons a t ih =>
    have ha : key a = c := h a (List.mem_cons_self a t)
    have ht : sortByKey key t = t := ih (fun x hx => h x (List.mem_cons_of_mem a hx))
    simp only [sortByKey, List.insertionSort] at ht ⊢
    rw [ht]
    cases t with
    | nil => rfl
    | cons b t2 =>
      have hb : key b = c := h b (List.mem_cons_of_mem a (List.mem_cons_self b t2))
      simp only [List.orderedInsert]
      rw [if_pos (by rw [ha, hb])]

theorem initWorkers_hours (workers : List Worker) :
    ∀ w ∈ initWorkers workers, w.weekly_hours = 0 := by
  intro w hw
  unfold initWorkers at hw
  obtain ⟨v, _, hv⟩ := List.mem_map.mp hw
  rw [← hv]

/-- C9 amended: `find_replacement_workers` itself performs no reset, but
every replacement query the program issues runs on a pool whose
`weekly_hours` were all forced to 0 by the generator's constructor, so the
query ranks every candidate as if it had 0 hours: the result is exactly
the available work-study workers in pool order followed by the available
others in pool order (no sorting effect remains), and every returned
record carries `weekly_hours = 0` — not the persisted totals. -/
theorem replacement_ranks_reset_hours (workers : List Worker)
    (day st et : String) (res : List Worker)
    (h : findReplacementRun workers day st et = some res) :
    (∀ w ∈ res, w.weekly_hours = 0) ∧
    ∃ avail, get_available_workers (initWorkers workers)
        ((dictFind day_map (pyLower day)).getD day) st et [] = some avail ∧
      res = avail.filter (fun w => w.work_study) ++
        avail.filter (fun w => !w.work_study) := by
  unfold findReplacementRun find_replacement_workers at h
  dsimp only at h
  cases hga : get_available_workers (initWorkers workers)
      ((dictFind day_map (pyLower day)).getD day) st et [] with
  | none => rw [hga] at h; simp at h
  | some avail =>
    rw [hga] at h
    simp only [Option.map] at h
    have hres : res = rankByPriority (fun w => w) avail := by
      cases h; rfl
    have hzero : ∀ x ∈ avail, x.weekly_hours = 0 := fun x hx =>
      initWorkers_hours workers x
        (mem_get_available _ _ _ _ (initWorkers workers) avail hga x hx)
    have hfilter1 : avail.filter
          (fun x => x.work_study && decide (x.weekly_hours < 5)) =
        avail.filter (fun w => w.work_study) := by
      apply List.filter_congr
      intro x hx
      rw [hzero x hx]
      simp
    have hfilter2 : avail.filter
          (fun x => !x.work_study || decide (x.weekly_hours ≥ 5)) =
        avail.filter (fun w => !w.work_study) := by
      apply List.filter_congr
      intro x hx
      rw [hzero x hx]
      simp
    have hrank : rankByPriority (fun w => w) avail =
        avail.filter (fun w => w.work_study) ++
          avail.filter (fun w => !w.work_study) := by
      unfold rankByPriority
      dsimp only
      rw [hfilter1, hfilter2,
        sortByKey_const _ 0 _ (fun x hx =>
          hzero x (List.mem_of_mem_filter hx)),
        sortByKey_const _ 0 _ (fun x hx =>
          hzero x (List.mem_of_mem_filter hx))]
    constructor
    · intro w hw
      rw [hres, hrank] at hw
      rcases List.mem_append.mp hw with hw | hw <;>
        exact hzero w (List.mem_of_mem_filter hw)
    · exact ⟨avail, rfl, by rw [hres, hrank]⟩

/-- Witness for C9 (amended) at the two-worker pool with persisted hours
6 and 0. -/
theorem replacement_ranks_reset_hours_witness :
    findReplacementRun [persistedB, persistedC] "Monday" "10:00" "12:00" =
      some [⟨"b", "Bea", "Study", "", true,
              [("Monday", [⟨"09:00", "17:00"⟩])], [], 0⟩,
            ⟨"c", "Cal", "Crew", "", false,
              [("Monday", [⟨"09:00", "17:00"⟩])], [], 0⟩] ∧
    ((∀ w ∈ ([⟨"b", "Bea", "Study", "", true,
              [("Monday", [⟨"09:00", "17:00"⟩])], [], 0⟩,
            ⟨"c", "Cal", "Crew", "", false,
              [("Monday", [⟨"09:00", "17:00"⟩])], [], 0⟩] : List Worker),
        w.weekly_hours = 0) ∧
      ∃ avail, get_available_workers (initWorkers [persistedB, persistedC])
          ((dictFind day_map (pyLower "Monday")).getD "Monday") "10:00"
          "12:00" [] = some avail ∧
        ([⟨"b", "Bea", "Study", "", true,
            [("Monday", [⟨"09:00", "17:00"⟩])], [], 0⟩,
          ⟨"c", "Cal", "Crew", "", false,
            [("Monday", [⟨"09:00", "17:00"⟩])], [], 0⟩] : List Worker) =
          avail.filter (fun w => w.work_study) ++
            avail.filter (fun w => !w.work_study)) :=
  ⟨by decide,
    replacement_ranks_reset_hours [persistedB, persistedC] "Monday" "10:00"
      "12:00" _ (by decide)⟩

/-! ## Helper lemmas for the schedule-generation claims (C1, C2, C8, C10) -/

theorem getD_eq_getElem {α : Type} [Inhabited α] (l : List α) (i : Nat)
    (h : i < l.length) : l.getD i default = l[i] := by
  rw [List.getD_eq_getElem?_getD, List.getElem?_eq_getElem h]
  rfl

theorem getD_set_self {α : Type} [Inhabited α] (l : List α) (i : Nat) (a : α)
    (h : i < l.length) : (l.set i a).getD i default = a := by
  rw [List.getD_eq_getElem?_getD, List.getElem?_set_self h]
  rfl

theorem getD_set_ne {α : Type} [Inhabited α] (l : List α) (i j : Nat) (a : α)
    (h : i ≠ j) : (l.set i a).getD j default = l.getD j default := by
  rw [List.getD_eq_getElem?_getD, List.getElem?_set_ne h,
    List.getD_eq_getElem?_getD]

theorem frameEq_refl (a : Worker) : frameEq a a :=
  ⟨rfl, rfl, rfl, rfl, rfl, rfl, rfl⟩

theorem frameEq_trans {a b c : Worker} (h1 : frameEq a b) (h2 : frameEq b c) :
    frameEq a c :=
  ⟨h1.1.trans h2.1, h1.2.1.trans h2.2.1, h1.2.2.1.trans h2.2.2.1,
   h1.2.2.2.1.trans h2.2.2.2.1, h1.2.2.2.2.1.trans h2.2.2.2.2.1,
   h1.2.2.2.2.2.1.trans h2.2.2.2.2.2.1, h1.2.2.2.2.2.2.trans h2.2.2.2.2.2.2⟩

theorem map_id_eq_of_frame (ws ws2 : List Worker)
    (hlen : ws2.length = ws.length)
    (hframe : ∀ i, i < ws.length →
      frameEq (ws2.getD i default) (ws.getD i default)) :
    ws2.map Worker.id = ws.map Worker.id := by
  apply List.ext_getElem (by simp [hlen])
  intro i h1 h2
  simp only [List.getElem_map]
  have hi2 : i < ws.length := by simpa using h2
  have hi1 : i < ws2.length := by simpa using h1
  have hf := (hframe i hi2).1
  rwa [getD_eq_getElem _ _ hi1, getD_eq_getElem _ _ hi2] at hf

theorem someIds_append (a b : List ShiftAssignment) :
    someIds (a ++ b) = someIds a ++ someIds b :=
  List.filterMap_append a b _

theorem hoursIn_append (a b : List ShiftAssignment) (x : String) :
    hoursIn (a ++ b) x = hoursIn a x + hoursIn b x := by
  rw [hoursIn_eq_sum, hoursIn_eq_sum, hoursIn_eq_sum, List.filter_append,
    List.map_append, List.sum_append]

theorem hoursIn_unassigned (st2 et2 n : String) (d : ℚ) (x : String) :
    hoursIn [⟨st2, et2, none, n, d⟩] x = 0 := rfl

theorem someIds_unassigned (st2 et2 n : String) (d : ℚ) :
    someIds [⟨st2, et2, none, n, d⟩] = [] := rfl

theorem someIds_assigned (st2 et2 wid n : String) (d : ℚ) :
    someIds [⟨st2, et2, some wid, n, d⟩] = [wid] := rfl

theorem hoursIn_assigned_self (st2 et2 wid n : String) (d : ℚ) :
    hoursIn [⟨st2, et2, some wid, n, d⟩] wid = d := by
  simp [hoursIn, ratAdd_eq_add]

theorem hoursIn_assigned_other (st2 et2 wid n : String) (d : ℚ) (x : String)
    (hx : x ≠ wid) : hoursIn [⟨st2, et2, some wid, n, d⟩] x = 0 := by
  unfold hoursIn
  rw [List.filter_cons]
  have hbe : ((⟨st2, et2, some wid, n, d⟩ : ShiftAssignment).worker_id ==
      some x) = false := by
    simp only [ShiftAssignment.worker_id]
    simp [Ne.symm hx]
  rw [hbe]
  rfl

theorem collectAvailable_mem (sel assigned : List String) (day st et : String) :
    ∀ (ws : List Worker) (k : Nat) (l : List Nat),
      collectAvailable sel assigned day st et k ws = some l →
      ∀ i ∈ l, ∃ j, i = k + j ∧ j < ws.length ∧
        (ws.getD j default).id ∈ sel ∧ (ws.getD j default).id ∉ assigned := by
  intro ws
  induction ws with
  | nil =>
    intro k l h i hi
    unfold collectAvailable at h
    simp at h
    subst h
    simp at hi
  | cons w rest ih =>
    intro k l h i hi
    unfold collectAvailable at h
    by_cases hc : w.id ∈ sel ∧ w.id ∉ assigned
    · rw [if_pos hc] at h
      cases hiwa : is_worker_available w day st et with
      | none => rw [hiwa] at h; simp at h
      | some b =>
        rw [hiwa] at h
        dsimp only at h
        cases hrec : collectAvailable sel assigned day st et (k + 1) rest with
        | none => rw [hrec] at h; simp at h
        | some l1 =>
          rw [hrec] at h
          cases b with
          | false =>
            simp at h
            subst h
            obtain ⟨j, hj1, hj2, hj3, hj4⟩ := ih (k + 1) l1 hrec i hi
            exact ⟨j + 1, by omega, by simp only [List.length_cons]; omega,
              hj3, hj4⟩
          | true =>
            simp at h
            subst h
            rcases List.mem_cons.mp hi with hik | hi2
            · subst hik
              exact ⟨0, by omega, by simp, hc.1, hc.2⟩
            · obtain ⟨j, hj1, hj2, hj3, hj4⟩ := ih (k + 1) l1 hrec i hi2
              exact ⟨j + 1, by omega, by simp only [List.length_cons]; omega,
                hj3, hj4⟩
    · rw [if_neg hc] at h
      obtain ⟨j, hj1, hj2, hj3, hj4⟩ := ih (k + 1) l h i hi
      exact ⟨j + 1, by omega, by simp only [List.length_cons]; omega, hj3, hj4⟩

/-- Conclusion bundle of `processShift_spec` for the no-change case. -/
theorem processShift_spec_refl (gs : GenState) :
    ∃ new : List ShiftAssignment,
      gs.day_shifts = gs.day_shifts ++ new ∧
      gs.assigned = gs.assigned ++ someIds new ∧
      (someIds new).Nodup ∧
      (∀ x ∈ someIds new, x ∉ gs.assigned) ∧
      gs.workers.length = gs.workers.length ∧
      (∀ i, i < gs.workers.length →
        frameEq (gs.workers.getD i default) (gs.workers.getD i default)) ∧
      ((gs.workers.map Worker.id).Nodup →
        ∀ i, i < gs.workers.length →
          (gs.workers.getD i default).weekly_hours =
            (gs.workers.getD i default).weekly_hours +
              hoursIn new ((gs.workers.getD i default).id)) := by
  refine ⟨[], by simp, by simp [someIds], by simp [someIds], by simp [someIds],
    rfl, fun i _ => frameEq_refl _, fun _ i _ => ?_⟩
  show _ = _ + hoursIn [] _
  rw [show hoursIn [] ((gs.workers.getD i default).id) = 0 from rfl, add_zero]

theorem processShift_spec (sel : List String) (day : String) (gs gs2 : GenState)
    (s : String) (h : processShift sel day gs s = some gs2) :
    ∃ new : List ShiftAssignment,
      gs2.day_shifts = gs.day_shifts ++ new ∧
      gs2.assigned = gs.assigned ++ someIds new ∧
      (someIds new).Nodup ∧
      (∀ x ∈ someIds new, x ∉ gs.assigned) ∧
      gs2.workers.length = gs.workers.length ∧
      (∀ i, i < gs.workers.length →
        frameEq (gs2.workers.getD i default) (gs.workers.getD i default)) ∧
      ((gs.workers.map Worker.id).Nodup →
        ∀ i, i < gs.workers.length →
          (gs2.workers.getD i default).weekly_hours =
            (gs.workers.getD i default).weekly_hours +
              hoursIn new ((gs.workers.getD i default).id)) := by
  unfold processShift at h
  split at h
  case h_2 =>
    injection h with h2
    subst h2
    exact processShift_spec_refl gs
  case h_1 st2 et2 hpar =>
    split at h
    case isTrue =>
      injection h with h2
      subst h2
      exact processShift_spec_refl gs
    case isFalse =>
      split at h
      case h_1 => exact absurd h (by simp)
      case h_2 dur hdur =>
        split at h
        case h_1 => exact absurd h (by simp)
        case h_2 avail hcoll =>
          split at h
          case h_2 hrank =>
            -- no available worker: an UNASSIGNED slot is appended
            injection h with h2
            subst h2
            refine ⟨[⟨st2, et2, none, "UNASSIGNED", dur⟩], rfl, ?_, ?_, ?_,
              rfl, fun i _ => frameEq_refl _, fun _ i _ => ?_⟩
            · rw [someIds_unassigned]; simp
            · rw [someIds_unassigned]; simp
            · rw [someIds_unassigned]; simp
            · rw [hoursIn_unassigned, add_zero]
          case h_1 i rest hrank =>
            -- a worker is assigned
            injection h with h2
            subst h2
            have hmem : i ∈ rankByPriority
                (fun j => gs.workers.getD j default) avail := by
              rw [hrank]; exact List.mem_cons_self i rest
            have hiavail : i ∈ avail :=
              mem_of_mem_rank (fun j => gs.workers.getD j default) avail i hmem
            obtain ⟨j, hij, hjlen, _, hnass⟩ :=
              collectAvailable_mem sel gs.assigned day st2 et2 gs.workers 0
                avail hcoll i hiavail
            have hilen : i < gs.workers.length := by omega
            have hieq : i = j := by omega
            subst hieq
            refine ⟨[⟨st2, et2, some (gs.workers.getD i default).id,
              (gs.workers.getD i default).first_name ++ " " ++
                (gs.workers.getD i default).last_name, dur⟩],
              rfl, by rw [someIds_assigned], by rw [someIds_assigned]; simp,
              ?_, List.length_set .., ?_, ?_⟩
            · intro x hx
              rw [someIds_assigned] at hx
              have hx2 := List.mem_singleton.mp hx
              subst hx2
              exact hnass
            · intro k hk
              by_cases hki : k = i
              · subst hki
                rw [getD_set_self _ _ _ hilen]
                exact ⟨rfl, rfl, rfl, rfl, rfl, rfl, rfl⟩
              · rw [getD_set_ne _ _ _ _ (fun hcon => hki hcon.symm)]
                exact frameEq_refl _
            · intro hnodup k hk
              by_cases hki : k = i
              · subst hki
                rw [getD_set_self _ _ _ hilen]
                show ratAdd _ _ = _
                rw [ratAdd_eq_add, hoursIn_assigned_self]
              · rw [getD_set_ne _ _ _ _ (fun hcon => hki hcon.symm)]
                have hkne : (gs.workers.getD k default).id ≠
                    (gs.workers.getD i default).id := by
                  intro hcon
                  apply hki
                  have hk2 : k < (gs.workers.map Worker.id).length := by
                    simpa using hk
                  have hi2 : i < (gs.workers.map Worker.id).length := by
                    simpa using hilen
                  have hmk : (gs.workers.map Worker.id)[k] =
                      (gs.workers.map Worker.id)[i] := by
                    simp only [List.getElem_map]
                    rwa [getD_eq_getElem _ _ hk, getD_eq_getElem _ _ hilen]
                      at hcon
                  exact (List.Nodup.getElem_inj_iff hnodup).mp hmk
                rw [hoursIn_assigned_other _ _ _ _ _ _ hkne, add_zero]

theorem hoursInDays_cons (d : String) (sh : List ShiftAssignment)
    (rest : List (String × List ShiftAssignment)) (x : String) :
    hoursInDays ((d, sh) :: rest) x = hoursIn sh x + hoursInDays rest x := by
  show ratAdd _ _ = _
  rw [ratAdd_eq_add]
  rfl

theorem processShifts_spec (sel : List String) (day : String) :
    ∀ (strs : List String) (gs gs2 : GenState),
      processShifts sel day gs strs = some gs2 →
      ∃ new : List ShiftAssignment,
        gs2.day_shifts = gs.day_shifts ++ new ∧
        gs2.assigned = gs.assigned ++ someIds new ∧
        (someIds new).Nodup ∧
        (∀ x ∈ someIds new, x ∉ gs.assigned) ∧
        gs2.workers.length = gs.workers.length ∧
        (∀ i, i < gs.workers.length →
          frameEq (gs2.workers.getD i default) (gs.workers.getD i default)) ∧
        ((gs.workers.map Worker.id).Nodup →
          ∀ i, i < gs.workers.length →
            (gs2.workers.getD i default).weekly_hours =
              (gs.workers.getD i default).weekly_hours +
                hoursIn new ((gs.workers.getD i default).id)) := by
  intro strs
  induction strs with
  | nil =>
    intro gs gs2 h
    unfold processShifts at h
    injection h with h2
    subst h2
    exact processShift_spec_refl gs
  | cons s rest ih =>
    intro gs gs2 h
    unfold processShifts at h
    cases hps : processShift sel day gs s with
    | none => rw [hps] at h; simp at h
    | some gsm =>
      rw [hps] at h
      obtain ⟨new1, hd1, ha1, hn1, hx1, hl1, hf1, hh1⟩ :=
        processShift_spec sel day gs gsm s hps
      obtain ⟨new2, hd2, ha2, hn2, hx2, hl2, hf2, hh2⟩ := ih gsm gs2 h
      refine ⟨new1 ++ new2, ?_, ?_, ?_, ?_, ?_, ?_, ?_⟩
      · rw [hd2, hd1, List.append_assoc]
      · rw [ha2, ha1, someIds_append, List.append_assoc]
      · rw [someIds_append]
        refine List.Nodup.append hn1 hn2 ?_
        intro a ham1 ham2
        have hni := hx2 a ham2
        rw [ha1] at hni
        exact hni (List.mem_append_right _ ham1)
      · intro x hx
        rw [someIds_append] at hx
        rcases List.mem_append.mp hx with hx | hx
        · exact hx1 x hx
        · have hni := hx2 x hx
          rw [ha1] at hni
          exact fun hmem => hni (List.mem_append_left _ hmem)
      · rw [hl2, hl1]
      · intro i hi
        exact frameEq_trans (hf2 i (by rw [hl1]; exact hi)) (hf1 i hi)
      · intro hnodup i hi
        have hmap : gsm.workers.map Worker.id = gs.workers.map Worker.id :=
          map_id_eq_of_frame _ _ hl1 hf1
        have hnodup2 : (gsm.workers.map Worker.id).Nodup := by
          rw [hmap]; exact hnodup
        have hgm := hh2 hnodup2 i (by rw [hl1]; exact hi)
        rw [(hf1 i hi).1] at hgm
        rw [hoursIn_append, hgm, hh1 hnodup i hi, add_assoc]

theorem processDays_spec (shift_times : List (String × List String))
    (sel : List String) :
    ∀ (dayList : List String) (ws ws2 : List Worker)
      (days : List (String × List ShiftAssignment)),
      processDays shift_times sel ws dayList = some (ws2, days) →
      (∀ p ∈ days, (someIds p.2).Nodup) ∧
      ws2.length = ws.length ∧
      (∀ i, i < ws.length → frameEq (ws2.getD i default) (ws.getD i default)) ∧
      ((ws.map Worker.id).Nodup →
        ∀ i, i < ws.length →
          (ws2.getD i default).weekly_hours =
            (ws.getD i default).weekly_hours +
              hoursInDays days ((ws.getD i default).id)) := by
  intro dayList
  induction dayList with
  | nil =>
    intro ws ws2 days h
    unfold processDays at h
    injection h with h2
    injection h2 with hw hd
    subst hw
    subst hd
    refine ⟨by simp, rfl, fun i _ => frameEq_refl _, fun _ i _ => ?_⟩
    rw [show hoursInDays [] ((ws.getD i default).id) = 0 from rfl, add_zero]
  | cons day restDays ih =>
    intro ws ws2 days h
    unfold processDays at h
    cases hdf : dictFind shift_times day with
    | none =>
      rw [hdf] at h
      exact ih ws ws2 days h
    | some dayStrs =>
      rw [hdf] at h
      dsimp only at h
      cases hps : processShifts sel day ⟨ws, [], []⟩ dayStrs with
      | none => rw [hps] at h; simp at h
      | some gs =>
        rw [hps] at h
        dsimp only at h
        cases hpd : processDays shift_times sel gs.workers restDays with
        | none => rw [hpd] at h; simp at h
        | some pr =>
          obtain ⟨fw, daysR⟩ := pr
          rw [hpd] at h
          dsimp only at h
          injection h with h2
          injection h2 with hw hd
          subst hw
          subst hd
          obtain ⟨new, hd1, ha1, hn1, hx1, hl1, hf1, hh1⟩ :=
            processShifts_spec sel day dayStrs ⟨ws, [], []⟩ gs hps
          obtain ⟨hnodupR, hlR, hfR, hhR⟩ := ih gs.workers fw daysR hpd
          have hds : gs.day_shifts = new := by simpa using hd1
          refine ⟨?_, ?_, ?_, ?_⟩
          · intro p hp
            by_cases hempty : gs.day_shifts = []
            · rw [if_pos hempty] at hp
              exact hnodupR p hp
            · rw [if_neg hempty] at hp
              rcases List.mem_cons.mp hp with hp | hp
              · subst hp
                rw [hds]
                exact hn1
              · exact hnodupR p hp
          · rw [hlR, hl1]
          · intro i hi
            exact frameEq_trans (hfR i (by rw [hl1]; exact hi)) (hf1 i hi)
          · intro hnodup i hi
            have hmap : gs.workers.map Worker.id = ws.map Worker.id :=
              map_id_eq_of_frame _ _ hl1 hf1
            have hnodup2 : (gs.workers.map Worker.id).Nodup := by
              rw [hmap]; exact hnodup
            have hgm := hhR hnodup2 i (by rw [hl1]; exact hi)
            rw [(hf1 i hi).1] at hgm
            have hgw := hh1 hnodup i hi
            by_cases hempty : gs.day_shifts = []
            · rw [if_pos hempty]
              have hnew : new = [] := by rw [← hds, hempty]
              rw [hgm, hgw, hnew]
              rw [show hoursIn [] ((ws.getD i default).id) = 0 from rfl,
                add_zero]
            · rw [if_neg hempty, hoursInDays_cons, hds, hgm, hgw, add_assoc]

theorem initWorkers_map_id (ws : List Worker) :
    (initWorkers ws).map Worker.id = ws.map Worker.id := by
  unfold initWorkers
  rw [List.map_map]
  rfl

/-- C1: in every schedule `generate_schedule` produces, no non-null
worker id appears in two Assignments of the same day: the per-day
`assigned_workers` set check makes each day's non-null worker-id list
duplicate-free. -/
theorem no_double_booking (shift_times : List (String × List String))
    (workplace_name : String) (workers : List Worker)
    (sel : Option (List String)) (sched : Schedule) (ws2 : List Worker)
    (h : generate_schedule shift_times workplace_name workers sel =
      some (sched, ws2)) :
    ∀ day shifts, (day, shifts) ∈ sched.days → (someIds shifts).Nodup := by
  unfold generate_schedule at h
  dsimp only at h
  cases hpd : processDays shift_times
      (sel.getD (workers.map (fun w => w.id))) workers weekOrder with
  | none => rw [hpd] at h; simp at h
  | some pr =>
    obtain ⟨fw, days⟩ := pr
    rw [hpd] at h
    dsimp only at h
    injection h with h2
    injection h2 with hs hw
    subst hw
    intro day shifts hmem
    have hnd := (processDays_spec shift_times _ weekOrder workers fw days hpd).1
    rw [← hs] at hmem
    exact hnd (day, shifts) hmem

/-- Witness for C1 at a one-worker, one-slot configuration. -/
theorem no_double_booking_witness :
    generate_schedule [("Monday", ["09:00 - 10:00"])] "wp"
      [⟨"a", "Ann", "Lee", "a@x", false,
        [("Monday", [⟨"09:00", "17:00"⟩])], [], 0⟩] none =
      some (⟨"wp", [("Monday", [⟨"09:00", "10:00", some "a", "Ann Lee", 1⟩])],
             [⟨"a", "Ann Lee", "a@x", false, 1⟩]⟩,
            [⟨"a", "Ann", "Lee", "a@x", false,
              [("Monday", [⟨"09:00", "17:00"⟩])], [], 1⟩]) ∧
    ∀ day shifts,
      (day, shifts) ∈ (Schedule.mk "wp"
        [("Monday", [⟨"09:00", "10:00", some "a", "Ann Lee", 1⟩])]
        [⟨"a", "Ann Lee", "a@x", false, 1⟩]).days →
      (someIds shifts).Nodup :=
  ⟨by decide,
    no_double_booking [("Monday", ["09:00 - 10:00"])] "wp"
      [⟨"a", "Ann", "Lee", "a@x", false,
        [("Monday", [⟨"09:00", "17:00"⟩])], [], 0⟩] none
      (Schedule.mk "wp"
      [("Monday", [⟨"09:00", "10:00", some "a", "Ann Lee", 1⟩])]
      [⟨"a", "Ann Lee", "a@x", false, 1⟩])
      [⟨"a", "Ann", "Lee", "a@x", false,
      [("Monday", [⟨"09:00", "17:00"⟩])], [], 1⟩] (by decide)⟩

/-- C2: in every schedule a generation run produces (constructor reset of
`weekly_hours` to 0 followed by one `generate_schedule`, as the
application drives it), each worker-summary entry's `weekly_hours` equals
the total `duration_hours` of the Assignments referencing that entry's id
across all days.  The hypothesis that worker ids are pairwise distinct is
the data model's id-uniqueness invariant (spec section 3). -/
theorem hours_consistency (shift_times : List (String × List String))
    (workplace_name : String) (workers : List Worker)
    (sel : Option (List String)) (sched : Schedule) (ws2 : List Worker)
    (hids : (workers.map Worker.id).Nodup)
    (h : generateScheduleRun shift_times workplace_name workers sel =
      some (sched, ws2)) :
    ∀ e ∈ sched.workers, e.weekly_hours = hoursInDays sched.days e.id := by
  unfold generateScheduleRun generate_schedule at h
  dsimp only at h
  cases hpd : processDays shift_times
      (sel.getD ((initWorkers workers).map (fun w => w.id)))
      (initWorkers workers) weekOrder with
  | none => rw [hpd] at h; simp at h
  | some pr =>
    obtain ⟨fw, days⟩ := pr
    rw [hpd] at h
    dsimp only at h
    injection h with h2
    injection h2 with hs hw
    subst hw
    obtain ⟨_, hlen, hframe, hhours⟩ :=
      processDays_spec shift_times _ weekOrder (initWorkers workers) fw days hpd
    have hnodup0 : ((initWorkers workers).map Worker.id).Nodup := by
      rw [initWorkers_map_id]; exact hids
    intro e he
    rw [← hs] at he
    obtain ⟨w, hwmem, hwe⟩ := List.mem_map.mp he
    have hwfw : w ∈ fw := List.mem_of_mem_filter hwmem
    obtain ⟨i, hilen, hieq⟩ := List.mem_iff_getElem.mp hwfw
    have hilen0 : i < (initWorkers workers).length := by
      rw [← hlen]; exact hilen
    have hwgetD : fw.getD i default = w := by
      rw [getD_eq_getElem _ _ hilen, hieq]
    have hzero : ((initWorkers workers).getD i default).weekly_hours = 0 := by
      have hm : (initWorkers workers).getD i default ∈ initWorkers workers := by
        rw [getD_eq_getElem _ _ hilen0]
        exact List.getElem_mem hilen0
      exact initWorkers_hours workers _ hm
    have hwh := hhours hnodup0 i hilen0
    rw [hwgetD, hzero, zero_add] at hwh
    have hwid : w.id = ((initWorkers workers).getD i default).id := by
      rw [← hwgetD]
      exact (hframe i hilen0).1
    rw [← hwe]
    show w.weekly_hours = hoursInDays _ w.id
    rw [← hs]
    show w.weekly_hours = hoursInDays days w.id
    rw [hwid, hwh]

/-- Witness for C2 at a one-worker, one-slot run started from persisted
hours 5 (reset by the constructor). -/
theorem hours_consistency_witness :
    ((([⟨"a", "Ann", "Lee", "a@x", false,
        [("Monday", [⟨"09:00", "17:00"⟩])], [], 5⟩] : List Worker).map
          Worker.id).Nodup) ∧
    generateScheduleRun [("Monday", ["09:00 - 10:00"])] "wp"
      [⟨"a", "Ann", "Lee", "a@x", false,
        [("Monday", [⟨"09:00", "17:00"⟩])], [], 5⟩] none =
      some (⟨"wp", [("Monday", [⟨"09:00", "10:00", some "a", "Ann Lee", 1⟩])],
             [⟨"a", "Ann Lee", "a@x", false, 1⟩]⟩,
            [⟨"a", "Ann", "Lee", "a@x", false,
              [("Monday", [⟨"09:00", "17:00"⟩])], [], 1⟩]) ∧
    ∀ e ∈ (Schedule.mk "wp"
        [("Monday", [⟨"09:00", "10:00", some "a", "Ann Lee", 1⟩])]
        [⟨"a", "Ann Lee", "a@x", false, 1⟩]).workers,
      e.weekly_hours = hoursInDays (Schedule.mk "wp"
        [("Monday", [⟨"09:00", "10:00", some "a", "Ann Lee", 1⟩])]
        [⟨"a", "Ann Lee", "a@x", false, 1⟩]).days e.id :=
  ⟨by decide, by decide,
    hours_consistency [("Monday", ["09:00 - 10:00"])] "wp"
      [⟨"a", "Ann", "Lee", "a@x", false,
        [("Monday", [⟨"09:00", "17:00"⟩])], [], 5⟩] none
      (Schedule.mk "wp"
      [("Monday", [⟨"09:00", "10:00", some "a", "Ann Lee", 1⟩])]
      [⟨"a", "Ann Lee", "a@x", false, 1⟩])
      [⟨"a", "Ann", "Lee", "a@x", false,
      [("Monday", [⟨"09:00", "17:00"⟩])], [], 1⟩] (by decide) (by decide)⟩

/-- C10: `generate_schedule` mutates only the `weekly_hours` field of the
worker pool: the final pool has the same length and, position by position,
identical `id`, `first_name`, `last_name`, `email`, `work_study`,
`availability` and `unavailable` fields (`frameEq`).  The configuration is
only read (the embedding of the run is a pure function of `shift_times`),
so `shift_times` cannot change. -/
theorem generate_frame_effect (shift_times : List (String × List String))
    (workplace_name : String) (workers : List Worker)
    (sel : Option (List String)) (sched : Schedule) (ws2 : List Worker)
    (h : generate_schedule shift_times workplace_name workers sel =
      some (sched, ws2)) :
    ws2.length = workers.length ∧
    ∀ i, i < workers.length →
      frameEq (ws2.getD i default) (workers.getD i default) := by
  unfold generate_schedule at h
  dsimp only at h
  cases hpd : processDays shift_times
      (sel.getD (workers.map (fun w => w.id))) workers weekOrder with
  | none => rw [hpd] at h; simp at h
  | some pr =>
    obtain ⟨fw, days⟩ := pr
    rw [hpd] at h
    dsimp only at h
    injection h with h2
    injection h2 with hs hw
    subst hw
    obtain ⟨_, hlen, hframe, _⟩ :=
      processDays_spec shift_times _ weekOrder workers fw days hpd
    exact ⟨hlen, hframe⟩

/-- Witness for C10 at a one-worker, one-slot run. -/
theorem generate_frame_effect_witness :
    generate_schedule [("Monday", ["09:00 - 10:00"])] "wp"
      [⟨"a", "Ann", "Lee", "a@x", false,
        [("Monday", [⟨"09:00", "17:00"⟩])], [], 0⟩] none =
      some (⟨"wp", [("Monday", [⟨"09:00", "10:00", some "a", "Ann Lee", 1⟩])],
             [⟨"a", "Ann Lee", "a@x", false, 1⟩]⟩,
            [⟨"a", "Ann", "Lee", "a@x", false,
              [("Monday", [⟨"09:00", "17:00"⟩])], [], 1⟩]) ∧
    (([⟨"a", "Ann", "Lee", "a@x", false,
        [("Monday", [⟨"09:00", "17:00"⟩])], [], 1⟩] : List Worker).length =
      ([⟨"a", "Ann", "Lee", "a@x", false,
        [("Monday", [⟨"09:00", "17:00"⟩])], [], 0⟩] : List Worker).length ∧
      ∀ i, i < ([⟨"a", "Ann", "Lee", "a@x", false,
        [("Monday", [⟨"09:00", "17:00"⟩])], [], 0⟩] : List Worker).length →
        frameEq (([⟨"a", "Ann", "Lee", "a@x", false,
            [("Monday", [⟨"09:00", "17:00"⟩])], [], 1⟩] : List Worker).getD i
          default)
          (([⟨"a", "Ann", "Lee", "a@x", false,
            [("Monday", [⟨"09:00", "17:00"⟩])], [], 0⟩] : List Worker).getD i
          default)) :=
  ⟨by decide,
    generate_frame_effect [("Monday", ["09:00 - 10:00"])] "wp"
      [⟨"a", "Ann", "Lee", "a@x", false,
        [("Monday", [⟨"09:00", "17:00"⟩])], [], 0⟩] none
      (Schedule.mk "wp"
      [("Monday", [⟨"09:00", "10:00", some "a", "Ann Lee", 1⟩])]
      [⟨"a", "Ann Lee", "a@x", false, 1⟩])
      [⟨"a", "Ann", "Lee", "a@x", false,
      [("Monday", [⟨"09:00", "17:00"⟩])], [], 1⟩] (by decide)⟩

/-! ## Error-handling claim (C8) -/

/-- C8 counterexample: the shift-time string "a - b" parses to the truthy
passthrough strings "a" and "b" (no am/pm marker, assumed 24-hour), which
pass the skip check; `time_to_minutes` then fails on both and
`calculate_shift_duration` compares `None < None`, raising an uncaught
`TypeError` — `generate_schedule` raises instead of returning a Schedule,
refuting the claim (the crash happens before any worker is consulted, so
an empty pool suffices). -/
theorem generate_crash_cex :
    generate_schedule [("Monday", ["a - b"])] "wp" [] none = none := by
  decide

theorem all_of_dictFind {α : Type} (d : List (String × α)) (p : α → Bool)
    (h : d.all (fun q => p q.2) = true) (k : String) (v : α)
    (hf : dictFind d k = some v) : p v = true := by
  unfold dictFind at hf
  cases hfind : d.find? (fun q => q.1 == k) with
  | none => rw [hfind] at hf; simp at hf
  | some pr =>
    rw [hfind] at hf
    simp at hf
    subst hf
    exact (List.all_eq_true.mp h) pr (List.mem_of_find?_eq_some hfind)

theorem checkUnavail_isSome (ss se : Int) (l : List (String × String))
    (hval : l.all (fun q => (time_to_minutes q.1).isSome &&
      (time_to_minutes q.2).isSome) = true) :
    (checkUnavail ss se l).isSome = true := by
  induction l with
  | nil => rfl
  | cons p rest ih =>
    obtain ⟨us, ue⟩ := p
    simp only [List.all_cons, Bool.and_eq_true] at hval
    obtain ⟨⟨h1, h2⟩, hrest⟩ := hval
    obtain ⟨a, ha⟩ := Option.isSome_iff_exists.mp h1
    obtain ⟨b, hb⟩ := Option.isSome_iff_exists.mp h2
    unfold checkUnavail
    simp only [ha, hb]
    by_cases hse : se ≤ a
    · rw [if_pos hse]; exact ih hrest
    · rw [if_neg hse]
      by_cases hgt : ss ≥ b
      · rw [if_pos hgt]; exact ih hrest
      · rw [if_neg hgt]; rfl

theorem availScan_isSome (w : Worker) (day : String) (ss se : Int)
    (l : List TimeWindow)
    (hval : l.all (fun tr => (time_to_minutes tr.start).isSome &&
      (time_to_minutes tr.end_).isSome) = true)
    (hunav : ∀ pairs, dictFind w.unavailable day = some pairs →
      pairs.all (fun q => (time_to_minutes q.1).isSome &&
        (time_to_minutes q.2).isSome) = true) :
    (availScan w day ss se l).isSome = true := by
  induction l with
  | nil => rfl
  | cons tr rest ih =>
    simp only [List.all_cons, Bool.and_eq_true] at hval
    obtain ⟨⟨h1, h2⟩, hrest⟩ := hval
    obtain ⟨a, ha⟩ := Option.isSome_iff_exists.mp h1
    obtain ⟨b, hb⟩ := Option.isSome_iff_exists.mp h2
    unfold availScan
    simp only [ha, hb]
    by_cases hle : a ≤ ss
    · rw [if_pos hle]
      by_cases hse : se ≤ b
      · rw [if_pos hse]
        cases hp : dictFind w.unavailable day with
        | none => rfl
        | some pairs =>
          dsimp only
          exact checkUnavail_isSome ss se pairs (hunav pairs hp)
      · rw [if_neg hse]; exact ih hrest
    · rw [if_neg hle]; exact ih hrest

theorem iwa_isSome (w : Worker) (day st et : String)
    (hw : workerTimesValidB w = true)
    (hst : (time_to_minutes st).isSome = true)
    (het : (time_to_minutes et).isSome = true) :
    (is_worker_available w day st et).isSome = true := by
  unfold is_worker_available
  cases hd : dictFind w.availability day with
  | none => rfl
  | some ranges =>
    dsimp only
    by_cases hnil : ranges = []
    · rw [if_pos hnil]; rfl
    · rw [if_neg hnil]
      obtain ⟨ss, hss⟩ := Option.isSome_iff_exists.mp hst
      obtain ⟨se, hse⟩ := Option.isSome_iff_exists.mp het
      simp only [hss, hse]
      unfold workerTimesValidB at hw
      rw [Bool.and_eq_true] at hw
      exact availScan_isSome w day ss se ranges
        (all_of_dictFind w.availability
          (fun l => l.all (fun tr => (time_to_minutes tr.start).isSome &&
            (time_to_minutes tr.end_).isSome)) hw.1 day ranges hd)
        (fun pairs hp => all_of_dictFind w.unavailable
          (fun l => l.all (fun q => (time_to_minutes q.1).isSome &&
            (time_to_minutes q.2).isSome)) hw.2 day pairs hp)

theorem collectAvailable_isSome (sel assigned : List String)
    (day st et : String)
    (hst : (time_to_minutes st).isSome = true)
    (het : (time_to_minutes et).isSome = true) :
    ∀ (ws : List Worker) (k : Nat), ws.all workerTimesValidB = true →
      (collectAvailable sel assigned day st et k ws).isSome = true := by
  intro ws
  induction ws with
  | nil => intro k _; rfl
  | cons w rest ih =>
    intro k hall
    simp only [List.all_cons, Bool.and_eq_true] at hall
    unfold collectAvailable
    by_cases hc : w.id ∈ sel ∧ w.id ∉ assigned
    · rw [if_pos hc]
      obtain ⟨b, hb⟩ := Option.isSome_iff_exists.mp
        (iwa_isSome w day st et hall.1 hst het)
      rw [hb]
      dsimp only
      obtain ⟨l1, hl1⟩ := Option.isSome_iff_exists.mp (ih (k + 1) hall.2)
      rw [hl1]
      rfl
    · rw [if_neg hc]
      exact ih (k + 1) hall.2

theorem workerTimesValid_getD (ws : List Worker) (i : Nat)
    (hws : ws.all workerTimesValidB = true) :
    workerTimesValidB (ws.getD i default) = true := by
  by_cases hi : i < ws.length
  · rw [getD_eq_getElem _ _ hi]
    exact (List.all_eq_true.mp hws) _ (List.getElem_mem hi)
  · have hnone : ws.getD i default = default := by
      rw [List.getD_eq_getElem?_getD, List.getElem?_eq_none (by omega)]
      rfl
    rw [hnone]
    rfl

theorem all_valid_set (ws : List Worker) (i : Nat) (w : Worker)
    (hws : ws.all workerTimesValidB = true)
    (hw : workerTimesValidB w = true) :
    (ws.set i w).all workerTimesValidB = true := by
  rw [List.all_eq_true] at hws ⊢
  intro x hx
  rcases List.mem_or_eq_of_mem_set hx with hx | hx
  · exact hws x hx
  · subst hx; exact hw

theorem processShift_isSome (sel : List String) (day : String) (gs : GenState)
    (s : String) (hs : shiftStrOk s = true)
    (hws : gs.workers.all workerTimesValidB = true) :
    ∃ gs2, processShift sel day gs s = some gs2 ∧
      gs2.workers.all workerTimesValidB = true := by
  unfold processShift
  have hs2 := hs
  unfold shiftStrOk at hs2
  cases hp : parse_time_range s with
  | mk o1 o2 =>
    rw [hp] at hs2
    cases o1 with
    | none => exact ⟨gs, rfl, hws⟩
    | some st2 =>
      cases o2 with
      | none => exact ⟨gs, rfl, hws⟩
      | some et2 =>
        dsimp only at hs2 ⊢
        by_cases hempty : st2 = "" ∨ et2 = ""
        · rw [if_pos hempty]; exact ⟨gs, rfl, hws⟩
        · rw [if_neg hempty]
          rw [if_neg (by simpa using hempty)] at hs2
          rw [Bool.and_eq_true] at hs2
          obtain ⟨ms, hms⟩ := Option.isSome_iff_exists.mp hs2.1
          obtain ⟨me, hme⟩ := Option.isSome_iff_exists.mp hs2.2
          have hdur : calculate_shift_duration_hours st2 et2 =
              some (mkRat ((if me < ms then me + 24 * 60 else me) - ms) 60) := by
            unfold calculate_shift_duration_hours calculate_shift_duration
            rw [if_neg hempty, hms, hme]
            rfl
          rw [hdur]
          dsimp only
          obtain ⟨avail, havail⟩ := Option.isSome_iff_exists.mp
            (collectAvailable_isSome sel gs.assigned day st2 et2 hs2.1 hs2.2
              gs.workers 0 hws)
          rw [havail]
          dsimp only
          cases hrank : rankByPriority
              (fun i => gs.workers.getD i default) avail with
          | nil => exact ⟨_, rfl, hws⟩
          | cons i rest =>
            refine ⟨_, rfl, ?_⟩
            exact all_valid_set _ _ _ hws (workerTimesValid_getD gs.workers i hws)

theorem processShifts_isSome (sel : List String) (day : String) :
    ∀ (strs : List String) (gs : GenState),
      strs.all shiftStrOk = true →
      gs.workers.all workerTimesValidB = true →
      ∃ gs2, processShifts sel day gs strs = some gs2 ∧
        gs2.workers.all workerTimesValidB = true := by
  intro strs
  induction strs with
  | nil => intro gs _ hws; exact ⟨gs, rfl, hws⟩
  | cons s rest ih =>
    intro gs hall hws
    simp only [List.all_cons, Bool.and_eq_true] at hall
    obtain ⟨gsm, hgsm, hwsm⟩ := processShift_isSome sel day gs s hall.1 hws
    obtain ⟨gs2, hgs2, hws2⟩ := ih gsm hall.2 hwsm
    refine ⟨gs2, ?_, hws2⟩
    unfold processShifts
    rw [hgsm]
    exact hgs2

theorem processDays_isSome (shift_times : List (String × List String))
    (sel : List String)
    (hcfg : shift_times.all (fun p => p.2.all shiftStrOk) = true) :
    ∀ (dayList : List String) (ws : List Worker),
      ws.all workerTimesValidB = true →
      ∃ out, processDays shift_times sel ws dayList = some out := by
  intro dayList
  induction dayList with
  | nil => intro ws _; exact ⟨(ws, []), rfl⟩
  | cons day rest ih =>
    intro ws hws
    unfold processDays
    cases hdf : dictFind shift_times day with
    | none => exact ih ws hws
    | some dayStrs =>
      dsimp only
      obtain ⟨gs, hgs, hwgs⟩ := processShifts_isSome sel day dayStrs
        ⟨ws, [], []⟩
        (all_of_dictFind shift_times (fun l => l.all shiftStrOk) hcfg day
          dayStrs hdf) hws
      rw [hgs]
      dsimp only
      obtain ⟨pr, hpr⟩ := ih gs.workers hwgs
      obtain ⟨fw, daysR⟩ := pr
      rw [hpr]
      exact ⟨_, rfl⟩

/-- C8 amended: `generate_schedule` returns a Schedule (raises nothing)
provided every configured shift-time string either fails its parse cleanly
(then it is skipped) or parses to times `time_to_minutes` accepts, and the
workers' declared windows are in canonical form — without those
hypotheses parse-passthrough garbage such as "a - b" raises an uncaught
`TypeError` (see the counterexample).  A skipped slot contributes no
Assignment at all — not even an UNASSIGNED one — and leaves the state
untouched, so the remaining slots are processed exactly as if the skipped
slot were absent. -/
theorem generate_no_crash (shift_times : List (String × List String))
    (workplace_name : String) (workers : List Worker)
    (sel : Option (List String))
    (hcfg : shift_times.all (fun p => p.2.all shiftStrOk) = true)
    (hw : workers.all workerTimesValidB = true) :
    (∃ out, generate_schedule shift_times workplace_name workers sel =
      some out) ∧
    (∀ (sel2 : List String) (day : String) (gs : GenState) (s : String),
      shiftSkipped s = true → processShift sel2 day gs s = some gs) := by
  constructor
  · unfold generate_schedule
    dsimp only
    obtain ⟨pr, hpr⟩ := processDays_isSome shift_times
      (sel.getD (workers.map (fun w => w.id))) hcfg weekOrder workers hw
    rw [hpr]
    obtain ⟨fw, days⟩ := pr
    exact ⟨_, rfl⟩
  · intro sel2 day gs s hskip
    unfold processShift
    unfold shiftSkipped at hskip
    cases hp : parse_time_range s with
    | mk o1 o2 =>
      rw [hp] at hskip
      cases o1 with
      | none => rfl
      | some a =>
        cases o2 with
        | none => rfl
        | some b =>
          dsimp only at hskip ⊢
          rw [if_pos (by simpa using hskip)]

/-- Witness for C8 (amended) at a concrete well-formed configuration whose
first slot is the cleanly-skipped token "na". -/
theorem generate_no_crash_witness :
    ([("Monday", ["na", "09:00 - 10:00"])] : List (String × List String)).all
      (fun p => p.2.all shiftStrOk) = true ∧
    ([⟨"a", "Ann", "Lee", "a@x", false,
      [("Monday", [⟨"09:00", "17:00"⟩])], [], 0⟩] : List Worker).all
      workerTimesValidB = true ∧
    ((∃ out, generate_schedule [("Monday", ["na", "09:00 - 10:00"])] "wp"
        [⟨"a", "Ann", "Lee", "a@x", false,
          [("Monday", [⟨"09:00", "17:00"⟩])], [], 0⟩] none = some out) ∧
      (∀ (sel2 : List String) (day : String) (gs : GenState) (s : String),
        shiftSkipped s = true → processShift sel2 day gs s = some gs)) :=
  ⟨by decide, by decide,
    generate_no_crash [("Monday", ["na", "09:00 - 10:00"])] "wp"
      [⟨"a", "Ann", "Lee", "a@x", false,
        [("Monday", [⟨"09:00", "17:00"⟩])], [], 0⟩] none
      (by decide) (by decide)⟩
